import Mathlib

/-!
# Chained hash table `itis::HashTable` (`src/hash_table.cpp`)

A shallow embedding of the C++ hash table that maps `int` keys to `std::string` values, and
the properties its specification states about it.

Conventions of the embedding.

* `std::vector<Bucket>` and the buckets themselves are Lean lists; a bucket is a list of
  `(key, value)` pairs in insertion order.
* `int` is `Int`.  Signed overflow is undefined behaviour in C++ and would need more than
  `2 ^ 30` buckets, so the arithmetic on `num_keys_` and on the capacity is left unbounded.
* `double` is `Double` below: NaN, the two infinities, or a finite dyadic number, with
  round-to-nearest-even division, so that the growth check is the floating-point comparison
  the code performs.
* An access `buckets_[i]` with `i` out of range is undefined behaviour; the operations that
  index the bucket array return `Option`, and `none` stands for such an access.
* `utils::hash` and `kGrowthCoefficient` are declared outside `hash_table.cpp`; they are the
  two fields of `Utils`, a parameter of every operation.
-/

set_option autoImplicit false
set_option linter.dupNamespace false

namespace itis

/-! ## The `double` type -/

/-- An IEEE-754 binary64 value: NaN, plus or minus infinity, or the finite number
`m * 2 ^ e`.  The two zeros are not told apart; no operation used here separates them. -/
inductive Double where
  | nan : Double
  | inf (neg : Bool) : Double
  | fin (m : Int) (e : Int) : Double
deriving DecidableEq, Repr

namespace Double

/-- On finite values, `m1 * 2 ^ e1 ≤ m2 * 2 ^ e2`, compared at the smaller exponent. -/
def finLe (m1 e1 m2 e2 : Int) : Bool :=
  let b := min e1 e2
  decide (m1 * ((2 ^ (e1 - b).toNat : Nat) : Int) ≤ m2 * ((2 ^ (e2 - b).toNat : Nat) : Int))

/-- On finite values, `m1 * 2 ^ e1 < m2 * 2 ^ e2`, compared at the smaller exponent. -/
def finLt (m1 e1 m2 e2 : Int) : Bool :=
  let b := min e1 e2
  decide (m1 * ((2 ^ (e1 - b).toNat : Nat) : Int) < m2 * ((2 ^ (e2 - b).toNat : Nat) : Int))

/-- The C++ comparison `a <= b` on doubles; false as soon as one side is NaN. -/
def le : Double → Double → Bool
  | nan, _ => false
  | _, nan => false
  | inf true, _ => true
  | inf false, inf false => true
  | inf false, _ => false
  | fin _ _, inf neg => !neg
  | fin m1 e1, fin m2 e2 => finLe m1 e1 m2 e2

/-- The C++ comparison `a < b` on doubles; false as soon as one side is NaN. -/
def lt : Double → Double → Bool
  | nan, _ => false
  | _, nan => false
  | inf true, inf true => false
  | inf true, _ => true
  | inf false, _ => false
  | fin _ _, inf neg => !neg
  | fin m1 e1, fin m2 e2 => finLt m1 e1 m2 e2

/-- The C++ comparison `a >= b`. -/
def ge (a b : Double) : Bool := le b a

/-- The C++ comparison `a > b`. -/
def gt (a b : Double) : Bool := lt b a

/-- Nearest integer to `n / d`, ties to the even one. -/
def roundHalfEven (n d : Nat) : Nat :=
  let q := n / d
  let r := n % d
  if 2 * r < d then q
  else if d < 2 * r then q + 1
  else if q % 2 = 0 then q else q + 1

/-- Binary logarithm rounded down, by repeated halving (`fuel` bounds the number of steps). -/
def log2Fuel : Nat → Nat → Nat
  | 0, _ => 0
  | fuel + 1, n => if 2 ≤ n then log2Fuel fuel (n / 2) + 1 else 0

/-- Binary logarithm of a positive natural number, rounded down. -/
def log2 (n : Nat) : Nat := log2Fuel n n

/-- Whether `2 ^ k ≤ n / d`. -/
def twoPowLe (k : Int) (n d : Nat) : Bool :=
  if 0 ≤ k then decide (2 ^ k.toNat * d ≤ n) else decide (d ≤ n * 2 ^ (-k).toNat)

/-- The integer `k` with `2 ^ k ≤ n / d < 2 ^ (k + 1)`, for positive `n` and `d`. -/
def floorLog2 (n d : Nat) : Int :=
  let k : Int := (log2 n : Int) - (log2 d : Int)
  if twoPowLe k n d then k else k - 1

/-- The double nearest to `(n / d) * 2 ^ s` with the given sign (`d` positive): 53 significant
bits, least exponent `-1074`, ties to even, and overflow to infinity from `2 ^ 1024` on. -/
def roundQuot (neg : Bool) (n d : Nat) (s : Int) : Double :=
  if n = 0 then fin 0 0 else
  let qe := max (floorLog2 n d + s) (-1022) - 52
  let sh := s - qe
  let m := if 0 ≤ sh then roundHalfEven (n * 2 ^ sh.toNat) d
           else roundHalfEven n (d * 2 ^ (-sh).toNat)
  if 0 ≤ qe ∧ 2 ^ 1024 ≤ m * 2 ^ qe.toNat then inf neg
  else fin (if neg then -(m : Int) else (m : Int)) qe

/-- Conversion of an integer to `double` (`static_cast<double>` and the implicit conversion
of `buckets_.size()`). -/
def ofInt (n : Int) : Double := roundQuot (decide (n < 0)) n.natAbs 1 0

/-- The double denoted by the decimal literal `n / 10 ^ k`, e.g. `0.5` is `literal 5 1`. -/
def literal (n k : Nat) : Double := roundQuot false n (10 ^ k) 0

/-- Floating-point division `a / b`, rounded to nearest. -/
def div : Double → Double → Double
  | nan, _ => nan
  | _, nan => nan
  | inf _, inf _ => nan
  | inf neg, fin m _ => inf (neg != decide (m < 0))
  | fin _ _, inf _ => fin 0 0
  | fin m1 e1, fin m2 e2 =>
    if m2 = 0 then (if m1 = 0 then nan else inf (decide (m1 < 0)))
    else roundQuot (decide (m1 < 0) != decide (m2 < 0)) m1.natAbs m2.natAbs (e1 - e2)

end Double

/-! ## Data model -/

/-- A bucket: the `(key, value)` pairs that hash to one index, in insertion order. -/
abbrev Bucket := List (Int × String)

/-- The data members of `HashTable`. -/
structure HashTable where
  num_keys_ : Int
  load_factor_ : Double
  buckets_ : List Bucket
deriving DecidableEq, Repr

/-- What `hash_table.cpp` uses from the header and from `utils`: the function
`utils::hash(key, size)` and the constant `HashTable::kGrowthCoefficient`. -/
structure Utils where
  hash : Int → Int → Int
  kGrowthCoefficient : Nat

/-- The contract of `utils::hash` and of the growth coefficient: the hash of any key for a
positive size is an index below that size, and the coefficient is at least one. -/
structure Utils.WellFormed (u : Utils) : Prop where
  hash_nonneg : ∀ (key n : Int), 0 < n → 0 ≤ u.hash key n
  hash_lt : ∀ (key n : Int), 0 < n → u.hash key n < n
  growth_pos : 1 ≤ u.kGrowthCoefficient

/-- A concrete choice: the key modulo the size, and growth coefficient two. -/
def modUtils : Utils := { hash := fun key n => key % n, kGrowthCoefficient := 2 }

/-- The access `buckets[i]`; `none` when `i` is out of range. -/
def bucketAt (buckets : List Bucket) (i : Int) : Option Bucket :=
  if 0 ≤ i then buckets[i.toNat]? else none

namespace HashTable

/-- `HashTable::hash`. -/
def hash (u : Utils) (t : HashTable) (key : Int) : Int :=
  u.hash key (t.buckets_.length : Int)

/-- Modelled from the spec: the initial value of the member `num_keys_`, a default member
initialiser in the header and so missing here; construction gives `size = 0`. -/
def initialNumKeys : Int := 0

/-- `HashTable::HashTable`; an exception is the `error` result carrying its message. -/
def HashTable (capacity : Int) (load_factor : Double) : Except String itis.HashTable :=
  if capacity ≤ 0 then
    .error "hash table capacity must be greater than zero"
  else if Double.le load_factor (.fin 0 0) || Double.gt load_factor (.fin 1 0) then
    .error "hash table load factor must be in range [0...1]"
  else
    .ok { num_keys_ := initialNumKeys, load_factor_ := load_factor,
          buckets_ := List.replicate capacity.toNat [] }

/-- The loop of `Search` over one bucket: the value of the first pair with the key. -/
def searchBucket : Bucket → Int → Option String
  | [], _ => none
  | elem :: rest, key => if elem.1 = key then some elem.2 else searchBucket rest key

/-- `HashTable::Search`. -/
def Search (u : Utils) (t : itis.HashTable) (key : Int) : Option (Option String) := do
  let hashCode := t.hash u key
  let bucket ← bucketAt t.buckets_ hashCode
  pure (searchBucket bucket key)

/-- `HashTable::ContainsKey`. -/
def ContainsKey (u : Utils) (t : itis.HashTable) (key : Int) : Option Bool := do
  let found ← Search u t key
  pure found.isSome

/-- The update loop of `Put`: every pair with the key gets the new value. -/
def overwrite : Bucket → Int → String → Bucket
  | [], _, _ => []
  | i :: rest, key, value =>
    (if i.1 = key then (i.1, value) else i) :: overwrite rest key value

/-- The growth condition of `Put`:
`static_cast<double>(num_keys_) / buckets_.size() >= load_factor_`. -/
def growthNeeded (t : itis.HashTable) : Bool :=
  Double.ge (Double.div (Double.ofInt t.num_keys_) (Double.ofInt (t.buckets_.length : Int)))
    t.load_factor_

/-- One step of the rehash loop:
`newBuckets_[utils::hash(pair.first, newBuckets_.size())].push_back(pair)`. -/
def rehashInto (u : Utils) (newBuckets : List Bucket) (pair : Int × String) :
    Option (List Bucket) := do
  let idx := u.hash pair.1 (newBuckets.length : Int)
  let bucket ← bucketAt newBuckets idx
  pure (newBuckets.set idx.toNat (bucket ++ [pair]))

/-- `HashTable::capacity`. -/
def capacity (t : itis.HashTable) : Int := (t.buckets_.length : Int)

/-- `HashTable::size`. -/
def size (t : itis.HashTable) : Int := t.num_keys_

/-- `HashTable::empty`. -/
def empty (t : itis.HashTable) : Bool := decide (t.size = 0)

/-- `HashTable::load_factor`. -/
def load_factor (t : itis.HashTable) : Double := t.load_factor_

/-- The insert-or-update part of `Put`, before the growth check. -/
def putStep (u : Utils) (t : itis.HashTable) (key : Int) (value : String) :
    Option itis.HashTable := do
  let hashCode := t.hash u key
  let present ← ContainsKey u t key
  let t1 ← if present then do
      let bucket ← bucketAt t.buckets_ hashCode
      pure { t with buckets_ := t.buckets_.set hashCode.toNat (overwrite bucket key value) }
    else pure t
  let present1 ← ContainsKey u t1 key
  if !present1 then do
    let bucket ← bucketAt t1.buckets_ hashCode
    pure { t1 with buckets_ := t1.buckets_.set hashCode.toNat (bucket ++ [(key, value)]),
                   num_keys_ := t1.num_keys_ + 1 }
  else pure t1

/-- The resize of `Put`: every pair of every old bucket, in order, is pushed into a fresh
array of `capacity() * kGrowthCoefficient` empty buckets, which replaces the old one. -/
def resize (u : Utils) (t : itis.HashTable) : Option itis.HashTable := do
  let newBuckets ← t.buckets_.foldlM
    (fun newBuckets elem => elem.foldlM (rehashInto u) newBuckets)
    (List.replicate (t.buckets_.length * u.kGrowthCoefficient) [])
  pure { t with buckets_ := newBuckets }

/-- `HashTable::Put`. -/
def Put (u : Utils) (t : itis.HashTable) (key : Int) (value : String) :
    Option itis.HashTable := do
  let t2 ← putStep u t key value
  if growthNeeded t2 then resize u t2 else pure t2

/-- The loop of `Remove` over one bucket: at the first pair with the key, its value and the
bucket with that pair erased. -/
def removeLoop : Bucket → Int → Option (String × Bucket)
  | [], _ => none
  | i :: rest, key =>
    if i.1 = key then some (i.2, rest)
    else (removeLoop rest key).map (fun r => (r.1, i :: r.2))

/-- `HashTable::Remove`: the returned optional and the table afterwards. -/
def Remove (u : Utils) (t : itis.HashTable) (key : Int) :
    Option (Option String × itis.HashTable) := do
  let hashCode := t.hash u key
  let present ← ContainsKey u t key
  if present then do
    let bucket ← bucketAt t.buckets_ hashCode
    match removeLoop bucket key with
    | some (deletedItem, bucket1) =>
      pure (some deletedItem,
        { t with buckets_ := t.buckets_.set hashCode.toNat bucket1,
                 num_keys_ := t.num_keys_ - 1 })
    | none => pure (none, t)
  else pure (none, t)

/-- `HashTable::keys`; the `std::unordered_set<int>` is a finite set. -/
def keys (t : itis.HashTable) : Finset Int :=
  t.buckets_.foldl (fun keys bucket => bucket.foldl (fun keys p => insert p.1 keys) keys) ∅

/-- `HashTable::values`. -/
def values (t : itis.HashTable) : List String :=
  t.buckets_.foldl (fun values bucket => bucket.foldl (fun values p => values ++ [p.2]) values)
    []

/-- The bucket a key hashes to under the current capacity (empty if the index is out of
range). -/
def bucketOf (u : Utils) (t : itis.HashTable) (key : Int) : Bucket :=
  t.buckets_.getD (t.hash u key).toNat []

/-- The table after the update branch of `Put`. -/
def updated (u : Utils) (t : itis.HashTable) (k : Int) (v : String) : itis.HashTable :=
  { t with buckets_ := t.buckets_.set (t.hash u k).toNat (overwrite (bucketOf u t k) k v) }

/-- The table after the insert branch of `Put`. -/
def inserted (u : Utils) (t : itis.HashTable) (k : Int) (v : String) : itis.HashTable :=
  { t with buckets_ := t.buckets_.set (t.hash u k).toNat (bucketOf u t k ++ [(k, v)]),
           num_keys_ := t.num_keys_ + 1 }

/-- The table after the insert-or-update part of `Put`. -/
def stepped (u : Utils) (t : itis.HashTable) (k : Int) (v : String) : itis.HashTable :=
  if (searchBucket (bucketOf u t k) k).isSome then updated u t k v else inserted u t k v

/-- The bucket array a resize builds from the pairs `l` for `n` buckets: bucket `j` holds the
pairs whose key hashes to `j`, in the order of `l`. -/
def rehashed (u : Utils) (n : Nat) (l : List (Int × String)) : List Bucket :=
  (List.range n).map
    (fun (j : Nat) => l.filter (fun p => decide (u.hash p.1 (n : Int) = (j : Int))))

/-- The table after the rehash of `Put`. -/
def resized (u : Utils) (t : itis.HashTable) : itis.HashTable :=
  { t with
    buckets_ := rehashed u (t.buckets_.length * u.kGrowthCoefficient) t.buckets_.flatten }

/-- The table after the erase branch of `Remove`, `b1` being the bucket after the erase. -/
def removed (u : Utils) (t : itis.HashTable) (k : Int) (b1 : Bucket) : itis.HashTable :=
  { t with buckets_ := t.buckets_.set (t.hash u k).toNat b1, num_keys_ := t.num_keys_ - 1 }

/-- The size after the insert-or-update part of `Put`: one more if the key was absent. -/
def sizeAfterStep (u : Utils) (t : itis.HashTable) (k : Int) : Int :=
  if Search u t k = some none then t.size + 1 else t.size

end HashTable

/-- The tables reachable from a successful construction by `Put` and `Remove`. -/
inductive Reachable (u : Utils) : HashTable → Prop where
  | construct (capacity : Int) (load_factor : Double) (t : HashTable) :
      HashTable.HashTable capacity load_factor = .ok t → Reachable u t
  | put (t t1 : HashTable) (key : Int) (value : String) :
      Reachable u t → HashTable.Put u t key value = some t1 → Reachable u t1
  | remove (t t1 : HashTable) (key : Int) (r : Option String) :
      Reachable u t → HashTable.Remove u t key = some (r, t1) → Reachable u t1

/-- The invariants of the data model: a positive number of buckets, every pair in the bucket
its key hashes to, no key twice in a bucket, and `num_keys_` the number of stored pairs. -/
structure Inv (u : Utils) (t : HashTable) : Prop where
  cap_pos : 0 < t.buckets_.length
  placed : ∀ (i : Nat) (b : Bucket), t.buckets_[i]? = some b →
    ∀ p ∈ b, u.hash p.1 (t.buckets_.length : Int) = (i : Int)
  nodup : ∀ b ∈ t.buckets_, (b.map Prod.fst).Nodup
  size_eq : t.num_keys_ = (t.buckets_.flatten.length : Int)

/-- A table of four buckets with load factor `0.5`, as constructed. -/
def emptyTable : HashTable :=
  { num_keys_ := 0, load_factor_ := Double.literal 5 1, buckets_ := [[], [], [], []] }

/-- The table `emptyTable` after `Put(1, "a")`. -/
def oneKeyTable : HashTable :=
  { num_keys_ := 1, load_factor_ := Double.literal 5 1, buckets_ := [[], [(1, "a")], [], []] }

/-- The table `oneKeyTable` after the insert part of `Put(2, "b")`, before the growth check. -/
def twoKeyStepTable : HashTable :=
  { num_keys_ := 2, load_factor_ := Double.literal 5 1,
    buckets_ := [[], [(1, "a")], [(2, "b")], []] }

/-- The table `oneKeyTable` after `Put(1, "b")`, which overwrites the value of key 1. -/
def overwrittenTable : HashTable :=
  { num_keys_ := 1, load_factor_ := Double.literal 5 1, buckets_ := [[], [(1, "b")], [], []] }

/-! ## Buckets -/

namespace HashTable

theorem searchBucket_eq_none_iff (b : Bucket) (k : Int) :
    searchBucket b k = none ↔ k ∉ b.map Prod.fst := by
  induction b with
  | nil => simp [searchBucket]
  | cons p rest ih =>
    by_cases h : p.1 = k
    · simp [searchBucket, h]
    · have h' : ¬ k = p.1 := fun e => h e.symm
      simp [searchBucket, h, h', ih]

theorem searchBucket_overwrite_self (b : Bucket) (k : Int) (v : String) :
    searchBucket (overwrite b k v) k = (searchBucket b k).map (fun _ => v) := by
  induction b with
  | nil => simp [searchBucket, overwrite]
  | cons p rest ih =>
    by_cases h : p.1 = k
    · simp [searchBucket, overwrite, h]
    · simp [searchBucket, overwrite, h, ih]

theorem searchBucket_overwrite_ne (b : Bucket) (k k' : Int) (v : String) (hk : k' ≠ k) :
    searchBucket (overwrite b k v) k' = searchBucket b k' := by
  induction b with
  | nil => simp [searchBucket, overwrite]
  | cons p rest ih =>
    by_cases h : p.1 = k
    · have h' : ¬ k = k' := fun e => hk e.symm
      simp [searchBucket, overwrite, h, h', ih]
    · simp [searchBucket, overwrite, h, ih]

theorem map_fst_overwrite (b : Bucket) (k : Int) (v : String) :
    (overwrite b k v).map Prod.fst = b.map Prod.fst := by
  induction b with
  | nil => simp [overwrite]
  | cons p rest ih =>
    by_cases h : p.1 = k <;> simp [overwrite, h, ih]

theorem length_overwrite (b : Bucket) (k : Int) (v : String) :
    (overwrite b k v).length = b.length := by
  have := congrArg List.length (map_fst_overwrite b k v)
  simpa using this

theorem overwrite_of_not_mem (b : Bucket) (k : Int) (v : String)
    (h : k ∉ b.map Prod.fst) : overwrite b k v = b := by
  induction b with
  | nil => simp [overwrite]
  | cons p rest ih =>
    simp only [List.map_cons, List.mem_cons, not_or] at h
    have h1 : ¬ p.1 = k := fun e => h.1 e.symm
    simp [overwrite, h1, ih h.2]

theorem searchBucket_append (b1 b2 : Bucket) (k : Int) :
    searchBucket (b1 ++ b2) k =
      match searchBucket b1 k with
      | some v => some v
      | none => searchBucket b2 k := by
  induction b1 with
  | nil => simp [searchBucket]
  | cons p rest ih =>
    by_cases h : p.1 = k
    · simp [searchBucket, h]
    · simp [searchBucket, h, ih]

theorem searchBucket_singleton (k k' : Int) (v : String) :
    searchBucket [(k, v)] k' = if k = k' then some v else none := by
  simp [searchBucket]

theorem removeLoop_eq_none_iff (b : Bucket) (k : Int) :
    removeLoop b k = none ↔ searchBucket b k = none := by
  induction b with
  | nil => simp [searchBucket, removeLoop]
  | cons p rest ih =>
    by_cases h : p.1 = k
    · simp [searchBucket, removeLoop, h]
    · simp [searchBucket, removeLoop, h, ih]

/-- What the loop of `Remove` does when it finds the key: the bucket splits around the first
pair with that key, which is the pair erased. -/
theorem removeLoop_eq_some_iff (b b1 : Bucket) (k : Int) (v : String) :
    removeLoop b k = some (v, b1) ↔
      ∃ l1 l2, b = l1 ++ (k, v) :: l2 ∧ b1 = l1 ++ l2 ∧ k ∉ l1.map Prod.fst := by
  induction b generalizing b1 with
  | nil => simp [removeLoop]
  | cons p rest ih =>
    by_cases h : p.1 = k
    · constructor
      · intro hr
        simp only [removeLoop, h, if_true, Option.some.injEq, Prod.mk.injEq] at hr
        refine ⟨[], rest, ?_, ?_, by simp⟩
        · obtain ⟨a, c⟩ := p
          simp only at h hr
          simp [← h, ← hr.1]
        · simp [hr.2]
      · rintro ⟨l1, l2, h1, h2, h3⟩
        cases l1 with
        | nil =>
          simp only [List.nil_append, List.cons.injEq] at h1 h2
          simp [removeLoop, h, h1.1, h1.2, h2]
        | cons q l1 =>
          simp only [List.cons_append, List.cons.injEq] at h1
          simp only [List.map_cons, List.mem_cons, not_or] at h3
          exact absurd (h1.1 ▸ h).symm h3.1
    · constructor
      · intro hr
        simp only [removeLoop, h, if_false, Option.map_eq_some'] at hr
        obtain ⟨⟨w, b2⟩, hr1, hr2⟩ := hr
        simp only [Prod.mk.injEq] at hr2
        obtain ⟨l1, l2, h1, h2, h3⟩ := (ih b2).1 (hr2.1 ▸ hr1)
        refine ⟨p :: l1, l2, by simp [h1], by simp [← hr2.2, h2], ?_⟩
        simp only [List.map_cons, List.mem_cons, not_or]
        exact ⟨fun e => h e.symm, h3⟩
      · rintro ⟨l1, l2, h1, h2, h3⟩
        cases l1 with
        | nil =>
          simp only [List.nil_append, List.cons.injEq] at h1
          exact absurd (by rw [h1.1]) h
        | cons q l1 =>
          simp only [List.cons_append, List.cons.injEq] at h1
          simp only [List.map_cons, List.mem_cons, not_or] at h3
          obtain ⟨hpq, hrest⟩ := h1
          subst hpq
          have := (ih (l1 ++ l2)).2 ⟨l1, l2, hrest, rfl, h3.2⟩
          simp [removeLoop, h, this, h2]

end HashTable
end itis

/-! ## Bucket access and the closed forms of the operations -/

namespace itis

theorem Utils.WellFormed.cast_toNat {u : Utils} (hu : u.WellFormed) (k : Int) {n : Nat}
    (hn : 0 < n) : ((u.hash k (n : Int)).toNat : Int) = u.hash k (n : Int) :=
  Int.toNat_of_nonneg (hu.hash_nonneg k n (by exact_mod_cast hn))

theorem Utils.WellFormed.toNat_lt {u : Utils} (hu : u.WellFormed) (k : Int) {n : Nat}
    (hn : 0 < n) : (u.hash k (n : Int)).toNat < n := by
  have h1 := hu.hash_lt k n (by exact_mod_cast hn)
  have h2 := hu.cast_toNat k hn
  omega

theorem bucketAt_hash {u : Utils} (hu : u.WellFormed) (bs : List Bucket)
    (hpos : 0 < bs.length) (k : Int) :
    bucketAt bs (u.hash k (bs.length : Int)) =
      some (bs.getD (u.hash k (bs.length : Int)).toNat []) := by
  have h1 := hu.hash_nonneg k bs.length (by exact_mod_cast hpos)
  have h2 := hu.toNat_lt k hpos
  simp [bucketAt, h1, List.getD_eq_getElem?_getD, List.getElem?_eq_getElem h2]

namespace HashTable

theorem bucketAt_eq {u : Utils} (hu : u.WellFormed) (t : itis.HashTable)
    (hpos : 0 < t.buckets_.length) (k : Int) :
    bucketAt t.buckets_ (t.hash u k) = some (bucketOf u t k) :=
  bucketAt_hash hu t.buckets_ hpos k

theorem index_lt {u : Utils} (hu : u.WellFormed) (t : itis.HashTable)
    (hpos : 0 < t.buckets_.length) (k : Int) : (t.hash u k).toNat < t.buckets_.length :=
  hu.toNat_lt k hpos

theorem getElem?_index {u : Utils} (hu : u.WellFormed) (t : itis.HashTable)
    (hpos : 0 < t.buckets_.length) (k : Int) :
    t.buckets_[(t.hash u k).toNat]? = some (bucketOf u t k) := by
  have h := index_lt hu t hpos k
  simp [bucketOf, List.getD_eq_getElem?_getD, List.getElem?_eq_getElem h]

theorem Search_eq {u : Utils} (hu : u.WellFormed) (t : itis.HashTable)
    (hpos : 0 < t.buckets_.length) (k : Int) :
    Search u t k = some (searchBucket (bucketOf u t k) k) := by
  simp [Search, bucketAt_eq hu t hpos k]

theorem ContainsKey_eq {u : Utils} (hu : u.WellFormed) (t : itis.HashTable)
    (hpos : 0 < t.buckets_.length) (k : Int) :
    ContainsKey u t k = some (searchBucket (bucketOf u t k) k).isSome := by
  simp [ContainsKey, Search_eq hu t hpos k]

theorem bucketOf_updated {u : Utils} (hu : u.WellFormed) (t : itis.HashTable)
    (hpos : 0 < t.buckets_.length) (k : Int) (v : String) :
    bucketOf u (updated u t k v) k = overwrite (bucketOf u t k) k v := by
  have h := index_lt hu t hpos k
  simp [bucketOf, updated, hash, List.getD_eq_getElem?_getD] at h ⊢
  simp [List.getElem?_set, h]

theorem putStep_of_present {u : Utils} (hu : u.WellFormed) (t : itis.HashTable)
    (hpos : 0 < t.buckets_.length) (k : Int) (v w : String)
    (hs : searchBucket (bucketOf u t k) k = some w) :
    putStep u t k v = some (updated u t k v) := by
  have hpos1 : 0 < (updated u t k v).buckets_.length := by simpa [updated] using hpos
  have hc := ContainsKey_eq hu (updated u t k v) hpos1 k
  rw [bucketOf_updated hu t hpos, searchBucket_overwrite_self, hs] at hc
  simp only [putStep, ContainsKey_eq hu t hpos k, hs, bucketAt_eq hu t hpos k]
  simp only [Option.isSome_some, Option.bind_eq_bind, Option.some_bind, if_true, Option.pure_def]
  change (ContainsKey u (updated u t k v) k).bind _ = _
  rw [hc]
  simp [updated]

theorem putStep_of_absent {u : Utils} (hu : u.WellFormed) (t : itis.HashTable)
    (hpos : 0 < t.buckets_.length) (k : Int) (v : String)
    (hs : searchBucket (bucketOf u t k) k = none) :
    putStep u t k v = some (inserted u t k v) := by
  simp [putStep, ContainsKey_eq hu t hpos k, hs, bucketAt_eq hu t hpos k, inserted]


theorem foldlM_nested (f : List Bucket → Int × String → Option (List Bucket))
    (bs : List Bucket) (init : List Bucket) :
    bs.foldlM (fun nb elem => elem.foldlM f nb) init = bs.flatten.foldlM f init := by
  induction bs generalizing init with
  | nil => simp
  | cons b rest ih =>
    simp only [List.foldlM_cons, List.flatten_cons, List.foldlM_append]
    congr 1
    funext nb
    exact ih nb

theorem rehashInto_eq {u : Utils} (hu : u.WellFormed) (nb : List Bucket)
    (hpos : 0 < nb.length) (p : Int × String) :
    rehashInto u nb p = some (nb.set (u.hash p.1 (nb.length : Int)).toNat
      (nb.getD (u.hash p.1 (nb.length : Int)).toNat [] ++ [p])) := by
  simp [rehashInto, bucketAt_hash hu nb hpos p.1]

theorem range_map_getD (nb : List Bucket) :
    (List.range nb.length).map (fun j => nb.getD j []) = nb := by
  apply List.ext_getElem
  · simp
  · intro i h1 h2
    simp [List.getD_eq_getElem?_getD, List.getElem?_eq_getElem h2]

theorem foldlM_rehashInto {u : Utils} (hu : u.WellFormed) (l : List (Int × String))
    (nb : List Bucket) (hpos : 0 < nb.length) :
    l.foldlM (rehashInto u) nb = some ((List.range nb.length).map (fun j =>
      nb.getD j [] ++ l.filter (fun p => decide (u.hash p.1 (nb.length : Int) = (j : Int))))) := by
  induction l generalizing nb with
  | nil =>
    simp only [List.foldlM_nil, List.filter_nil, List.append_nil, range_map_getD]
    rfl
  | cons p rest ih =>
    have hlt := hu.toNat_lt p.1 hpos
    have hcast := hu.cast_toNat p.1 hpos
    rw [List.foldlM_cons, rehashInto_eq hu nb hpos p]
    simp only [Option.bind_eq_bind, Option.some_bind]
    rw [ih _ (by simpa using hpos)]
    simp only [List.length_set, Option.some.injEq]
    apply List.map_congr_left
    intro j _
    by_cases hj : (u.hash p.1 (nb.length : Int)).toNat = j
    · have hj' : u.hash p.1 (nb.length : Int) = (j : Int) := by omega
      have hjl : j < nb.length := by omega
      simp [List.getD_eq_getElem?_getD, List.getElem?_set, hjl, List.filter_cons, hj']
    · have hj' : ¬ u.hash p.1 (nb.length : Int) = (j : Int) := by omega
      simp [List.getD_eq_getElem?_getD, List.getElem?_set, hj, List.filter_cons, hj']

theorem foldlM_rehashInto_replicate {u : Utils} (hu : u.WellFormed) (l : List (Int × String))
    (n : Nat) (hn : 0 < n) :
    l.foldlM (rehashInto u) (List.replicate n []) = some (rehashed u n l) := by
  rw [foldlM_rehashInto hu l _ (by simpa using hn)]
  simp only [List.length_replicate, rehashed]
  congr 1
  apply List.map_congr_left
  intro j hj
  have hj' : j < n := List.mem_range.1 hj
  have hnil : (List.replicate n ([] : Bucket)).getD j [] = [] := by
    simp [List.getD_eq_getElem?_getD, List.getElem?_replicate, hj']
  rw [hnil, List.nil_append]

theorem resize_eq {u : Utils} (hu : u.WellFormed) (t : itis.HashTable)
    (hpos : 0 < t.buckets_.length) :
    resize u t = some
      { t with
        buckets_ := rehashed u (t.buckets_.length * u.kGrowthCoefficient) t.buckets_.flatten } := by
  have hn : 0 < t.buckets_.length * u.kGrowthCoefficient := Nat.mul_pos hpos hu.growth_pos
  simp only [resize, foldlM_nested]
  rw [foldlM_rehashInto_replicate hu _ _ hn]
  rfl

/-! ## The invariants and their preservation -/


theorem split_at (bs : List Bucket) (h : Nat) (hlt : h < bs.length) :
    ∃ l1 l2, bs = l1 ++ bs.getD h [] :: l2 ∧ l1.length = h ∧
      ∀ b1, bs.set h b1 = l1 ++ b1 :: l2 := by
  refine ⟨bs.take h, bs.drop (h + 1), ?_, ?_, ?_⟩
  · have h1 : bs.getD h [] = bs[h] := by
      simp [List.getD_eq_getElem?_getD, List.getElem?_eq_getElem hlt]
    rw [h1, List.getElem_cons_drop, List.take_append_drop]
  · simp [List.length_take]
    omega
  · intro b1
    exact List.set_eq_take_append_cons_drop.trans (by simp [hlt])

theorem length_flatten_set (bs : List Bucket) (h : Nat) (hlt : h < bs.length) (b1 : Bucket) :
    ((bs.set h b1).flatten.length : Int) =
      (bs.flatten.length : Int) - ((bs.getD h []).length : Int) + (b1.length : Int) := by
  obtain ⟨l1, l2, h1, _, h3⟩ := split_at bs h hlt
  have e1 : bs.flatten.length = (l1 ++ bs.getD h [] :: l2).flatten.length := by rw [← h1]
  rw [h3 b1, e1]
  simp only [List.flatten_append, List.flatten_cons, List.length_append]
  push_cast
  omega

theorem Inv_set {u : Utils} {t : itis.HashTable} (hinv : Inv u t) (h : Nat)
    (hlt : h < t.buckets_.length) (b1 : Bucket) (n1 : Int)
    (hplaced : ∀ p ∈ b1, u.hash p.1 (t.buckets_.length : Int) = (h : Int))
    (hnodup : (b1.map Prod.fst).Nodup)
    (hsize : n1 = t.num_keys_ - ((t.buckets_.getD h []).length : Int) + (b1.length : Int)) :
    Inv u { t with buckets_ := t.buckets_.set h b1, num_keys_ := n1 } := by
  refine ⟨?_, ?_, ?_, ?_⟩
  · simpa using hinv.cap_pos
  · intro i b hb p hp
    simp only [List.length_set]
    simp only [List.getElem?_set] at hb
    by_cases hi : h = i
    · simp only [hi, if_true] at hb
      split at hb
      · simp only [Option.some.injEq] at hb
        subst hb
        rw [← hi]
        exact hplaced p hp
      · exact absurd hb (by simp)
    · simp only [hi, if_false] at hb
      exact hinv.placed i b hb p hp
  · intro b hb
    rcases List.mem_or_eq_of_mem_set hb with hb | hb
    · exact hinv.nodup b hb
    · exact hb ▸ hnodup
  · show n1 = ((t.buckets_.set h b1).flatten.length : Int)
    rw [length_flatten_set _ _ hlt, hsize, hinv.size_eq]

theorem filter_range_perm (g : Int × String → Int) (l : List (Int × String)) (m : Nat) :
    List.Perm
      ((List.range m).map (fun (j : Nat) => l.filter (fun p => decide (g p = (j : Int))))).flatten
      (l.filter (fun p => decide (0 ≤ g p ∧ g p < (m : Int)))) := by
  induction m with
  | zero =>
    have : l.filter (fun p => decide (0 ≤ g p ∧ g p < ((0 : Nat) : Int))) = [] := by
      rw [List.filter_eq_nil_iff]
      intro p _
      simp only [decide_eq_true_eq]
      omega
    rw [this]
    simp
  | succ m ih =>
    rw [List.range_succ, List.map_append, List.flatten_append]
    simp only [List.map_cons, List.map_nil, List.flatten_cons, List.flatten_nil, List.append_nil]
    have key := List.filter_append_perm (fun p => decide (g p < (m : Int)))
      (l.filter (fun p => decide (0 ≤ g p ∧ g p < ((m + 1 : Nat) : Int))))
    rw [List.filter_filter, List.filter_filter] at key
    have e1 : l.filter (fun p => decide (g p < (m : Int)) &&
        decide (0 ≤ g p ∧ g p < ((m + 1 : Nat) : Int))) =
        l.filter (fun p => decide (0 ≤ g p ∧ g p < (m : Int))) := by
      apply List.filter_congr
      intro p _
      rw [Bool.eq_iff_iff]
      simp only [Bool.and_eq_true, decide_eq_true_eq]
      push_cast
      omega
    have e2 : l.filter (fun p => (!decide (g p < (m : Int))) &&
        decide (0 ≤ g p ∧ g p < ((m + 1 : Nat) : Int))) =
        l.filter (fun p => decide (g p = (m : Int))) := by
      apply List.filter_congr
      intro p _
      rw [Bool.eq_iff_iff]
      simp only [Bool.and_eq_true, Bool.not_eq_true', decide_eq_false_iff_not, decide_eq_true_eq]
      push_cast
      omega
    rw [e1, e2] at key
    exact (List.Perm.append_right _ ih).trans key

theorem rehashed_flatten_perm {u : Utils} (hu : u.WellFormed) (n : Nat) (hn : 0 < n)
    (l : List (Int × String)) : List.Perm (rehashed u n l).flatten l := by
  have h1 := filter_range_perm (fun p => u.hash p.1 (n : Int)) l n
  have h2 : l.filter (fun p => decide (0 ≤ u.hash p.1 (n : Int) ∧ u.hash p.1 (n : Int) < (n : Int)))
      = l := by
    rw [List.filter_eq_self]
    intro p _
    have hn' : (0 : Int) < (n : Int) := by exact_mod_cast hn
    simp [hu.hash_nonneg p.1 n hn', hu.hash_lt p.1 n hn']
  rw [h2] at h1
  exact h1

theorem length_rehashed (u : Utils) (n : Nat) (l : List (Int × String)) :
    (rehashed u n l).length = n := by
  simp [rehashed]

theorem getElem?_rehashed (u : Utils) (n : Nat) (l : List (Int × String)) (j : Nat)
    (hj : j < n) :
    (rehashed u n l)[j]? = some (l.filter (fun p => decide (u.hash p.1 (n : Int) = (j : Int)))) := by
  simp [rehashed, List.getElem?_map, List.getElem?_range hj]


theorem Inv_keys_nodup {u : Utils} {t : itis.HashTable} (hinv : Inv u t) :
    (t.buckets_.flatten.map Prod.fst).Nodup := by
  rw [List.map_flatten, List.nodup_flatten]
  constructor
  · intro l hl
    obtain ⟨b, hb, rfl⟩ := List.mem_map.1 hl
    exact hinv.nodup b hb
  · rw [List.pairwise_map, List.pairwise_iff_getElem]
    intro i j hi hj hij k hk1 hk2
    obtain ⟨p1, hp1, e1⟩ := List.mem_map.1 hk1
    obtain ⟨p2, hp2, e2⟩ := List.mem_map.1 hk2
    have h1 := hinv.placed i _ (List.getElem?_eq_getElem hi) p1 hp1
    have h2 := hinv.placed j _ (List.getElem?_eq_getElem hj) p2 hp2
    rw [e1] at h1
    rw [e2] at h2
    omega

theorem searchBucket_flatten (k : Int) (bs : List Bucket) (h : Nat)
    (hp : ∀ (i : Nat) (b : Bucket), bs[i]? = some b → ∀ p ∈ b, p.1 = k → i = h) :
    searchBucket bs.flatten k = searchBucket (bs.getD h []) k := by
  induction bs generalizing h with
  | nil => simp [searchBucket]
  | cons b0 rest ih =>
    rw [List.flatten_cons, searchBucket_append]
    cases h with
    | zero =>
      simp only [List.getD_cons_zero]
      cases hs : searchBucket b0 k with
      | some v => rfl
      | none =>
        simp only
        rw [searchBucket_eq_none_iff]
        intro hk
        obtain ⟨p, hp1, hp2⟩ := List.mem_map.1 hk
        obtain ⟨b, hb1, hb2⟩ := List.mem_flatten.1 hp1
        obtain ⟨i, hi, hbi⟩ := List.getElem_of_mem hb1
        have := hp (i + 1) b (by simp [List.getElem?_eq_getElem hi, hbi]) p hb2 hp2
        omega
    | succ h1 =>
      have hnone : searchBucket b0 k = none := by
        rw [searchBucket_eq_none_iff]
        intro hk
        obtain ⟨p, hp1, hp2⟩ := List.mem_map.1 hk
        have := hp 0 b0 (by simp) p hp1 hp2
        omega
      rw [hnone]
      simp only [List.getD_cons_succ]
      apply ih
      intro i b hb p hpb hpk
      have := hp (i + 1) b (by simpa using hb) p hpb hpk
      omega

theorem Inv_search_flatten {u : Utils} (hu : u.WellFormed) {t : itis.HashTable}
    (hinv : Inv u t) (k : Int) :
    searchBucket t.buckets_.flatten k = searchBucket (bucketOf u t k) k := by
  apply searchBucket_flatten
  intro i b hb p hp hk
  have h1 := hinv.placed i b hb p hp
  have h2 := hu.cast_toNat k hinv.cap_pos
  rw [hk] at h1
  simp only [hash]
  omega

theorem searchBucket_filter (l : Bucket) (k : Int) (P : Int × String → Bool)
    (hP : ∀ p ∈ l, p.1 = k → P p = true) :
    searchBucket (l.filter P) k = searchBucket l k := by
  induction l with
  | nil => simp [searchBucket]
  | cons q rest ih =>
    have ih1 := ih (fun p hp => hP p (List.mem_cons_of_mem _ hp))
    by_cases hq : q.1 = k
    · have := hP q (List.mem_cons_self _ _) hq
      simp [List.filter_cons, this, searchBucket, hq]
    · by_cases hPq : P q = true
      · simp [List.filter_cons, hPq, searchBucket, hq, ih1]
      · simp [List.filter_cons, hPq, searchBucket, hq, ih1]

theorem Inv_resized {u : Utils} (hu : u.WellFormed) {t : itis.HashTable} (hinv : Inv u t) :
    Inv u (resized u t) := by
  have hn : 0 < t.buckets_.length * u.kGrowthCoefficient :=
    Nat.mul_pos hinv.cap_pos hu.growth_pos
  refine ⟨?_, ?_, ?_, ?_⟩
  · simpa [resized, length_rehashed] using hn
  · intro i b hb p hp
    simp only [resized] at hb ⊢
    rw [length_rehashed]
    have hi : i < t.buckets_.length * u.kGrowthCoefficient := by
      obtain ⟨h, _⟩ := List.getElem?_eq_some.1 hb
      simpa [length_rehashed] using h
    rw [getElem?_rehashed u _ _ i hi] at hb
    simp only [Option.some.injEq] at hb
    subst hb
    simpa using (List.mem_filter.1 hp).2
  · intro b hb
    simp only [resized, rehashed] at hb
    obtain ⟨j, _, rfl⟩ := List.mem_map.1 hb
    exact (Inv_keys_nodup hinv).sublist ((List.filter_sublist _).map Prod.fst)
  · show t.num_keys_ = ((resized u t).buckets_.flatten.length : Int)
    rw [hinv.size_eq]
    simp only [resized]
    rw [(rehashed_flatten_perm hu _ hn _).length_eq]

theorem Search_resized {u : Utils} (hu : u.WellFormed) {t : itis.HashTable} (hinv : Inv u t)
    (k : Int) : Search u (resized u t) k = Search u t k := by
  have hn : 0 < t.buckets_.length * u.kGrowthCoefficient :=
    Nat.mul_pos hinv.cap_pos hu.growth_pos
  have hinv1 := Inv_resized hu hinv
  rw [Search_eq hu _ hinv1.cap_pos, Search_eq hu _ hinv.cap_pos, ← Inv_search_flatten hu hinv]
  have hb := getElem?_index hu (resized u t) hinv1.cap_pos k
  have hlen : (resized u t).buckets_.length = t.buckets_.length * u.kGrowthCoefficient := by
    simp [resized, length_rehashed]
  have hlt := index_lt hu (resized u t) hinv1.cap_pos k
  have hcast := hu.cast_toNat k hinv1.cap_pos
  simp only [hash] at hb hlt hcast
  rw [hlen] at hb hlt hcast
  simp only [resized] at hb
  rw [getElem?_rehashed u _ _ _ hlt] at hb
  simp only [Option.some.injEq] at hb
  have hb1 : bucketOf u (resized u t) k = _ := hb.symm
  rw [hb1]
  congr 1
  apply searchBucket_filter
  intro p _ hpk
  simp only [decide_eq_true_eq, hpk]
  exact hcast.symm


theorem bucketOf_set (u : Utils) (t t1 : itis.HashTable) (h : Nat)
    (hlt : h < t.buckets_.length) (b1 : Bucket) (hb : t1.buckets_ = t.buckets_.set h b1)
    (k : Int) :
    bucketOf u t1 k = if (t.hash u k).toNat = h then b1 else bucketOf u t k := by
  simp only [bucketOf, hash, hb, List.length_set, List.getD_eq_getElem?_getD, List.getElem?_set]
  by_cases hk : (u.hash k (t.buckets_.length : Int)).toNat = h
  · simp [hk, hlt]
  · have hk' : ¬ h = (u.hash k (t.buckets_.length : Int)).toNat := fun e => hk e.symm
    simp [hk, hk']

theorem Search_set_self {u : Utils} (hu : u.WellFormed) (t t1 : itis.HashTable)
    (hpos : 0 < t.buckets_.length) (k : Int) (b1 : Bucket)
    (hb : t1.buckets_ = t.buckets_.set (t.hash u k).toNat b1) :
    Search u t1 k = some (searchBucket b1 k) := by
  have hpos1 : 0 < t1.buckets_.length := by simpa [hb] using hpos
  rw [Search_eq hu t1 hpos1, bucketOf_set u t t1 _ (index_lt hu t hpos k) b1 hb]
  simp

theorem Search_set_ne {u : Utils} (hu : u.WellFormed) (t t1 : itis.HashTable)
    (hpos : 0 < t.buckets_.length) (k k1 : Int) (b1 : Bucket)
    (hb : t1.buckets_ = t.buckets_.set (t.hash u k).toNat b1)
    (hsame : searchBucket b1 k1 = searchBucket (bucketOf u t k) k1) :
    Search u t1 k1 = Search u t k1 := by
  have hpos1 : 0 < t1.buckets_.length := by simpa [hb] using hpos
  rw [Search_eq hu t1 hpos1, Search_eq hu t hpos,
    bucketOf_set u t t1 _ (index_lt hu t hpos k) b1 hb]
  by_cases hk : (t.hash u k1).toNat = (t.hash u k).toNat
  · have e : bucketOf u t k1 = bucketOf u t k := by simp [bucketOf, hk]
    simp [hk, hsame, e]
  · simp [hk]

theorem Inv_updated {u : Utils} (hu : u.WellFormed) {t : itis.HashTable} (hinv : Inv u t)
    (k : Int) (v : String) : Inv u (updated u t k v) := by
  have hlt := index_lt hu t hinv.cap_pos k
  have hb := getElem?_index hu t hinv.cap_pos k
  have hmem : bucketOf u t k ∈ t.buckets_ := List.getElem?_mem hb
  have h := Inv_set hinv _ hlt (overwrite (bucketOf u t k) k v) t.num_keys_ ?_ ?_ ?_
  · exact h
  · intro p hp
    have hp1 : p.1 ∈ (overwrite (bucketOf u t k) k v).map Prod.fst := List.mem_map_of_mem _ hp
    rw [map_fst_overwrite] at hp1
    obtain ⟨q, hq, hqp⟩ := List.mem_map.1 hp1
    rw [← hqp]
    exact hinv.placed _ _ hb q hq
  · rw [map_fst_overwrite]
    exact hinv.nodup _ hmem
  · rw [length_overwrite]
    simp only [bucketOf]
    omega

theorem Inv_inserted {u : Utils} (hu : u.WellFormed) {t : itis.HashTable} (hinv : Inv u t)
    (k : Int) (v : String) (hs : searchBucket (bucketOf u t k) k = none) :
    Inv u (inserted u t k v) := by
  have hlt := index_lt hu t hinv.cap_pos k
  have hb := getElem?_index hu t hinv.cap_pos k
  have hmem : bucketOf u t k ∈ t.buckets_ := List.getElem?_mem hb
  have h := Inv_set hinv _ hlt (bucketOf u t k ++ [(k, v)]) (t.num_keys_ + 1) ?_ ?_ ?_
  · exact h
  · intro p hp
    rcases List.mem_append.1 hp with hp | hp
    · exact hinv.placed _ _ hb p hp
    · simp only [List.mem_singleton] at hp
      subst hp
      exact (hu.cast_toNat k hinv.cap_pos).symm
  · rw [List.map_append, List.nodup_append]
    refine ⟨hinv.nodup _ hmem, by simp, ?_⟩
    intro a ha1 ha2
    simp only [List.map_cons, List.map_nil, List.mem_singleton] at ha2
    subst ha2
    exact (searchBucket_eq_none_iff _ _).1 hs ha1
  · simp only [List.length_append, List.length_singleton, bucketOf]
    push_cast
    omega

theorem Inv_removed {u : Utils} (hu : u.WellFormed) {t : itis.HashTable} (hinv : Inv u t)
    (k : Int) (w : String) (b1 : Bucket) (hr : removeLoop (bucketOf u t k) k = some (w, b1)) :
    Inv u (removed u t k b1) := by
  have hlt := index_lt hu t hinv.cap_pos k
  have hb := getElem?_index hu t hinv.cap_pos k
  have hmem : bucketOf u t k ∈ t.buckets_ := List.getElem?_mem hb
  obtain ⟨l1, l2, e1, e2, _⟩ := (removeLoop_eq_some_iff _ _ _ _).1 hr
  have hsub : List.Sublist b1 (bucketOf u t k) := by
    rw [e1, e2]
    exact List.Sublist.append_left (List.sublist_cons_self _ _) _
  have h := Inv_set hinv _ hlt b1 (t.num_keys_ - 1) ?_ ?_ ?_
  · exact h
  · intro p hp
    exact hinv.placed _ _ hb p (hsub.subset hp)
  · exact (hinv.nodup _ hmem).sublist (hsub.map Prod.fst)
  · have hl : (bucketOf u t k).length = b1.length + 1 := by
      rw [e1, e2]
      simp only [List.length_append, List.length_cons]
      omega
    simp only [bucketOf] at hl ⊢
    omega

theorem removeLoop_value (b b1 : Bucket) (k : Int) (w : String)
    (hr : removeLoop b k = some (w, b1)) : searchBucket b k = some w := by
  obtain ⟨l1, l2, e1, _, hn⟩ := (removeLoop_eq_some_iff _ _ _ _).1 hr
  rw [e1, searchBucket_append, (searchBucket_eq_none_iff _ _).2 hn]
  simp [searchBucket]

theorem removeLoop_of_search (b : Bucket) (k : Int) (w : String)
    (hs : searchBucket b k = some w) : ∃ b1, removeLoop b k = some (w, b1) := by
  cases hr : removeLoop b k with
  | none =>
    rw [(removeLoop_eq_none_iff _ _).1 hr] at hs
    exact absurd hs (by simp)
  | some r =>
    obtain ⟨w1, b1⟩ := r
    have := removeLoop_value b b1 k w1 hr
    rw [hs] at this
    simp only [Option.some.injEq] at this
    exact ⟨b1, by rw [this]⟩

theorem searchBucket_removed_self (b b1 : Bucket) (k : Int) (w : String)
    (hr : removeLoop b k = some (w, b1)) (hnd : (b.map Prod.fst).Nodup) :
    searchBucket b1 k = none := by
  obtain ⟨l1, l2, e1, e2, hn⟩ := (removeLoop_eq_some_iff _ _ _ _).1 hr
  rw [e1, List.map_append, List.map_cons, List.nodup_append] at hnd
  have h2 : k ∉ l2.map Prod.fst := (List.nodup_cons.1 hnd.2.1).1
  rw [e2, searchBucket_eq_none_iff, List.map_append, List.mem_append]
  exact fun h => h.elim hn h2

theorem searchBucket_removed_ne (b b1 : Bucket) (k k1 : Int) (w : String)
    (hr : removeLoop b k = some (w, b1)) (hk : k1 ≠ k) :
    searchBucket b1 k1 = searchBucket b k1 := by
  obtain ⟨l1, l2, e1, e2, _⟩ := (removeLoop_eq_some_iff _ _ _ _).1 hr
  have hk' : ¬ k = k1 := fun e => hk e.symm
  rw [e1, e2, searchBucket_append, searchBucket_append]
  simp [searchBucket, hk']

theorem Remove_of_absent {u : Utils} (hu : u.WellFormed) (t : itis.HashTable)
    (hpos : 0 < t.buckets_.length) (k : Int)
    (hs : searchBucket (bucketOf u t k) k = none) : Remove u t k = some (none, t) := by
  simp [Remove, ContainsKey_eq hu t hpos k, hs]

theorem Remove_of_present {u : Utils} (hu : u.WellFormed) (t : itis.HashTable)
    (hpos : 0 < t.buckets_.length) (k : Int) (w : String) (b1 : Bucket)
    (hr : removeLoop (bucketOf u t k) k = some (w, b1)) :
    Remove u t k = some (some w, removed u t k b1) := by
  have hs := removeLoop_value _ _ _ _ hr
  simp [Remove, ContainsKey_eq hu t hpos k, hs, bucketAt_eq hu t hpos k, hr, removed]

theorem putStep_eq {u : Utils} (hu : u.WellFormed) (t : itis.HashTable)
    (hpos : 0 < t.buckets_.length) (k : Int) (v : String) :
    putStep u t k v = some (stepped u t k v) := by
  cases hs : searchBucket (bucketOf u t k) k with
  | none => simp [stepped, hs, putStep_of_absent hu t hpos k v hs]
  | some w => simp [stepped, hs, putStep_of_present hu t hpos k v w hs]

theorem Put_eq {u : Utils} (hu : u.WellFormed) (t : itis.HashTable)
    (hpos : 0 < t.buckets_.length) (k : Int) (v : String) :
    Put u t k v = some (if growthNeeded (stepped u t k v) then resized u (stepped u t k v)
      else stepped u t k v) := by
  have hstep := putStep_eq hu t hpos k v
  have hpos1 : 0 < (stepped u t k v).buckets_.length := by
    unfold stepped
    split <;> simpa [updated, inserted] using hpos
  simp only [Put, hstep, Option.bind_eq_bind, Option.some_bind]
  split
  · rw [resize_eq hu _ hpos1]
    rfl
  · rfl


theorem construct_ok {capacity : Int} {lf : Double} {t : itis.HashTable}
    (h : HashTable.HashTable capacity lf = .ok t) :
    0 < capacity ∧ Double.le lf (.fin 0 0) = false ∧ Double.gt lf (.fin 1 0) = false ∧
      t = { num_keys_ := 0, load_factor_ := lf,
            buckets_ := List.replicate capacity.toNat [] } := by
  unfold HashTable.HashTable at h
  by_cases hc : capacity ≤ 0
  · simp [hc] at h
  · cases h1 : Double.le lf (.fin 0 0) <;> cases h2 : Double.gt lf (.fin 1 0) <;>
      simp [hc, h1, h2, initialNumKeys] at h
    exact ⟨by omega, rfl, rfl, h.symm⟩

theorem flatten_replicate_nil (n : Nat) : (List.replicate n ([] : Bucket)).flatten = [] := by
  induction n with
  | zero => rfl
  | succ n ih => simp [List.replicate_succ, ih]

theorem Inv_construct (u : Utils) {capacity : Int} {lf : Double} {t : itis.HashTable}
    (h : HashTable.HashTable capacity lf = .ok t) : Inv u t := by
  obtain ⟨hc, _, _, rfl⟩ := construct_ok h
  refine ⟨?_, ?_, ?_, ?_⟩
  · simp only [List.length_replicate]
    omega
  · intro i b hb p hp
    simp only [List.getElem?_replicate] at hb
    split at hb
    · simp only [Option.some.injEq] at hb
      subst hb
      exact absurd hp (List.not_mem_nil _)
    · exact absurd hb (by simp)
  · intro b hb
    rw [List.eq_of_mem_replicate hb]
    exact List.nodup_nil
  · simp [flatten_replicate_nil]

theorem Search_construct {u : Utils} (hu : u.WellFormed) {capacity : Int} {lf : Double}
    {t : itis.HashTable} (h : HashTable.HashTable capacity lf = .ok t) (k : Int) :
    Search u t k = some none := by
  have hinv := Inv_construct u h
  obtain ⟨_, _, _, ht⟩ := construct_ok h
  rw [Search_eq hu _ hinv.cap_pos]
  have hb := List.getElem?_mem (getElem?_index hu _ hinv.cap_pos k)
  have hb1 : bucketOf u t k ∈ List.replicate capacity.toNat ([] : Bucket) := by
    rw [ht] at hb ⊢
    exact hb
  rw [List.eq_of_mem_replicate hb1]
  rfl

theorem Inv_stepped {u : Utils} (hu : u.WellFormed) {t : itis.HashTable} (hinv : Inv u t)
    (k : Int) (v : String) : Inv u (stepped u t k v) := by
  unfold stepped
  cases hs : searchBucket (bucketOf u t k) k with
  | none => simpa using Inv_inserted hu hinv k v hs
  | some w => simpa using Inv_updated hu hinv k v

theorem Search_stepped_self {u : Utils} (hu : u.WellFormed) {t : itis.HashTable}
    (hinv : Inv u t) (k : Int) (v : String) :
    Search u (stepped u t k v) k = some (some v) := by
  unfold stepped
  cases hs : searchBucket (bucketOf u t k) k with
  | none =>
    simp only [Option.isSome_none, Bool.false_eq_true, if_false]
    rw [Search_set_self hu t _ hinv.cap_pos k _ rfl, searchBucket_append, hs]
    simp [searchBucket]
  | some w =>
    simp only [Option.isSome_some, if_true]
    rw [Search_set_self hu t _ hinv.cap_pos k _ rfl, searchBucket_overwrite_self, hs]
    rfl

theorem Search_stepped_ne {u : Utils} (hu : u.WellFormed) {t : itis.HashTable}
    (hinv : Inv u t) (k k1 : Int) (v : String) (hk : k1 ≠ k) :
    Search u (stepped u t k v) k1 = Search u t k1 := by
  have hk' : ¬ k = k1 := fun e => hk e.symm
  unfold stepped
  split
  · apply Search_set_ne hu t _ hinv.cap_pos k k1 _ rfl
    exact searchBucket_overwrite_ne _ _ _ _ hk
  · apply Search_set_ne hu t _ hinv.cap_pos k k1 _ rfl
    rw [searchBucket_append]
    cases searchBucket (bucketOf u t k) k1 <;> simp [searchBucket, hk']

theorem size_stepped (u : Utils) (t : itis.HashTable) (k : Int) (v : String) :
    (stepped u t k v).size =
      if (searchBucket (bucketOf u t k) k).isSome then t.size else t.size + 1 := by
  unfold stepped
  split <;> rfl

theorem capacity_stepped (u : Utils) (t : itis.HashTable) (k : Int) (v : String) :
    (stepped u t k v).capacity = t.capacity := by
  unfold stepped
  split <;> simp [capacity, updated, inserted]

theorem load_factor_stepped (u : Utils) (t : itis.HashTable) (k : Int) (v : String) :
    (stepped u t k v).load_factor_ = t.load_factor_ := by
  unfold stepped
  split <;> rfl

theorem reachable_inv {u : Utils} (hu : u.WellFormed) {t : itis.HashTable}
    (hr : Reachable u t) : Inv u t := by
  induction hr with
  | construct capacity lf t h => exact Inv_construct u h
  | put t t1 k v _ hput ih =>
    rw [Put_eq hu t ih.cap_pos] at hput
    simp only [Option.some.injEq] at hput
    have hs := Inv_stepped hu ih k v
    rw [← hput]
    split
    · exact Inv_resized hu hs
    · exact hs
  | remove t t1 k r _ hrem ih =>
    cases hs : searchBucket (bucketOf u t k) k with
    | none =>
      rw [Remove_of_absent hu t ih.cap_pos k hs] at hrem
      simp only [Option.some.injEq, Prod.mk.injEq] at hrem
      exact hrem.2 ▸ ih
    | some w =>
      obtain ⟨b1, hb1⟩ := removeLoop_of_search _ _ _ hs
      rw [Remove_of_present hu t ih.cap_pos k w b1 hb1] at hrem
      simp only [Option.some.injEq, Prod.mk.injEq] at hrem
      exact hrem.2 ▸ Inv_removed hu ih k w b1 hb1

theorem foldl_insert_keys (b : Bucket) (init : Finset Int) :
    b.foldl (fun keys p => insert p.1 keys) init = init ∪ (b.map Prod.fst).toFinset := by
  induction b generalizing init with
  | nil => simp
  | cons p rest ih =>
    simp only [List.foldl_cons, ih, List.map_cons, List.toFinset_cons]
    ext x
    simp only [Finset.mem_union, Finset.mem_insert]
    tauto

theorem foldl_keys (bs : List Bucket) (init : Finset Int) :
    bs.foldl (fun keys bucket => bucket.foldl (fun keys p => insert p.1 keys) keys) init =
      init ∪ (bs.flatten.map Prod.fst).toFinset := by
  induction bs generalizing init with
  | nil => simp
  | cons b rest ih =>
    rw [List.foldl_cons, ih, foldl_insert_keys, List.flatten_cons, List.map_append,
      List.toFinset_append, Finset.union_assoc]

theorem keys_eq (t : itis.HashTable) :
    t.keys = (t.buckets_.flatten.map Prod.fst).toFinset := by
  simp [keys, foldl_keys]

theorem foldl_push_values (b : Bucket) (init : List String) :
    b.foldl (fun values p => values ++ [p.2]) init = init ++ b.map Prod.snd := by
  induction b generalizing init with
  | nil => simp
  | cons p rest ih => simp [List.foldl_cons, ih]

theorem foldl_values (bs : List Bucket) (init : List String) :
    bs.foldl (fun values bucket => bucket.foldl (fun values p => values ++ [p.2]) values) init =
      init ++ bs.flatten.map Prod.snd := by
  induction bs generalizing init with
  | nil => simp
  | cons b rest ih =>
    rw [List.foldl_cons, ih, foldl_push_values, List.flatten_cons, List.map_append,
      List.append_assoc]

theorem values_eq (t : itis.HashTable) : t.values = t.buckets_.flatten.map Prod.snd := by
  simp [values, foldl_values]

/-! ## What one `Put` and one `Remove` do -/


theorem Search_eq_some_none {u : Utils} (hu : u.WellFormed) (t : itis.HashTable)
    (hpos : 0 < t.buckets_.length) (k : Int) :
    Search u t k = some none ↔ searchBucket (bucketOf u t k) k = none := by
  rw [Search_eq hu t hpos]
  simp

theorem size_stepped_eq {u : Utils} (hu : u.WellFormed) (t : itis.HashTable)
    (hpos : 0 < t.buckets_.length) (k : Int) (v : String) :
    (stepped u t k v).size = sizeAfterStep u t k := by
  rw [size_stepped, sizeAfterStep]
  by_cases h : Search u t k = some none
  · have h1 := (Search_eq_some_none hu t hpos k).1 h
    simp [h, h1]
  · have h1 : ¬ searchBucket (bucketOf u t k) k = none :=
      fun e => h ((Search_eq_some_none hu t hpos k).2 e)
    have h2 : (searchBucket (bucketOf u t k) k).isSome = true := by
      cases hs : searchBucket (bucketOf u t k) k with
      | none => exact absurd hs h1
      | some w => rfl
    simp [h, h2]

theorem growthNeeded_stepped {u : Utils} (hu : u.WellFormed) (t : itis.HashTable)
    (hpos : 0 < t.buckets_.length) (k : Int) (v : String) :
    growthNeeded (stepped u t k v) =
      Double.ge (Double.div (Double.ofInt (sizeAfterStep u t k)) (Double.ofInt t.capacity))
        t.load_factor_ := by
  have h1 := size_stepped_eq hu t hpos k v
  have h2 := capacity_stepped u t k v
  have h3 := load_factor_stepped u t k v
  simp only [size, capacity] at h1 h2
  simp only [growthNeeded, h1, h2, h3, capacity]

/-- Everything one `Put` does to a table that satisfies the invariants. -/
theorem Put_spec {u : Utils} (hu : u.WellFormed) {t : itis.HashTable} (hinv : Inv u t)
    (k : Int) (v : String) :
    ∃ t1, Put u t k v = some t1 ∧ Inv u t1 ∧ t1.load_factor_ = t.load_factor_ ∧
      t1.size = sizeAfterStep u t k ∧
      t1.capacity =
        (if Double.ge (Double.div (Double.ofInt (sizeAfterStep u t k))
            (Double.ofInt t.capacity)) t.load_factor_
         then t.capacity * (u.kGrowthCoefficient : Int) else t.capacity) ∧
      Search u t1 k = some (some v) ∧
      ∀ k1, k1 ≠ k → Search u t1 k1 = Search u t k1 := by
  have hs := Inv_stepped hu hinv k v
  have hg := growthNeeded_stepped hu t hinv.cap_pos k v
  have hsz := size_stepped_eq hu t hinv.cap_pos k v
  have hcap := capacity_stepped u t k v
  have hlf := load_factor_stepped u t k v
  refine ⟨_, Put_eq hu t hinv.cap_pos k v, ?_⟩
  rw [← hg]
  by_cases hgrow : growthNeeded (stepped u t k v) = true
  · simp only [hgrow, if_true]
    refine ⟨Inv_resized hu hs, hlf, hsz, ?_, ?_, ?_⟩
    · simp only [capacity] at hcap
      simp only [capacity, resized, length_rehashed]
      push_cast
      rw [hcap]
    · rw [Search_resized hu hs]
      exact Search_stepped_self hu hinv k v
    · intro k1 hk1
      rw [Search_resized hu hs]
      exact Search_stepped_ne hu hinv k k1 v hk1
  · simp only [hgrow, if_false]
    exact ⟨hs, hlf, hsz, hcap, Search_stepped_self hu hinv k v,
      fun k1 hk1 => Search_stepped_ne hu hinv k k1 v hk1⟩

/-- Removing a key that `Search` finds. -/
theorem Remove_spec_present {u : Utils} (hu : u.WellFormed) {t : itis.HashTable}
    (hinv : Inv u t) (k : Int) (w : String) (hs : Search u t k = some (some w)) :
    ∃ t1, Remove u t k = some (some w, t1) ∧ Inv u t1 ∧ t1.size = t.size - 1 ∧
      t1.capacity = t.capacity ∧ Search u t1 k = some none ∧
      ∀ k1, k1 ≠ k → Search u t1 k1 = Search u t k1 := by
  rw [Search_eq hu t hinv.cap_pos] at hs
  simp only [Option.some.injEq] at hs
  obtain ⟨b1, hb1⟩ := removeLoop_of_search _ _ _ hs
  have hmem : bucketOf u t k ∈ t.buckets_ :=
    List.getElem?_mem (getElem?_index hu t hinv.cap_pos k)
  refine ⟨removed u t k b1, Remove_of_present hu t hinv.cap_pos k w b1 hb1,
    Inv_removed hu hinv k w b1 hb1, rfl, by simp [capacity, removed], ?_, ?_⟩
  · rw [Search_set_self hu t _ hinv.cap_pos k b1 rfl,
      searchBucket_removed_self _ _ _ _ hb1 (hinv.nodup _ hmem)]
  · intro k1 hk1
    exact Search_set_ne hu t _ hinv.cap_pos k k1 b1 rfl
      (searchBucket_removed_ne _ _ _ _ _ hb1 hk1)

theorem modUtils_wellFormed : modUtils.WellFormed where
  hash_nonneg := fun key n hn => Int.emod_nonneg key (by omega)
  hash_lt := fun key n hn => Int.emod_lt_of_pos key hn
  growth_pos := by decide

end HashTable

theorem emptyTable_reachable : Reachable modUtils emptyTable :=
  Reachable.construct 4 (Double.literal 5 1) emptyTable rfl

theorem oneKeyTable_reachable : Reachable modUtils oneKeyTable :=
  Reachable.put emptyTable oneKeyTable 1 "a" emptyTable_reachable (by decide)

end itis

/-! ## The claims of the specification -/

namespace itis

open HashTable

/-- C1: construction raises an error exactly when `capacity <= 0`, `load_factor <= 0.0` or
`load_factor > 1.0` (the comparisons of `double`), and succeeds otherwise; so `(0, 0.5)`,
`(-1, 0.5)`, `(8, 0.0)` and `(8, 1.5)` fail while `(8, 1.0)` and `(8, 0.01)` succeed. -/
theorem construct_fails_iff :
    (∀ (capacity : Int) (lf : Double),
      ((∃ e, HashTable.HashTable capacity lf = .error e) ↔
        (capacity ≤ 0 ∨ Double.le lf (.fin 0 0) = true ∨ Double.gt lf (.fin 1 0) = true)) ∧
      ((∃ t, HashTable.HashTable capacity lf = .ok t) ↔
        ¬ (capacity ≤ 0 ∨ Double.le lf (.fin 0 0) = true ∨ Double.gt lf (.fin 1 0) = true))) ∧
    (∃ e, HashTable.HashTable 0 (Double.literal 5 1) = .error e) ∧
    (∃ e, HashTable.HashTable (-1) (Double.literal 5 1) = .error e) ∧
    (∃ e, HashTable.HashTable 8 (Double.literal 0 1) = .error e) ∧
    (∃ e, HashTable.HashTable 8 (Double.literal 15 1) = .error e) ∧
    (∃ t, HashTable.HashTable 8 (Double.literal 10 1) = .ok t) ∧
    (∃ t, HashTable.HashTable 8 (Double.literal 1 2) = .ok t) := by
  refine ⟨?_, ⟨_, rfl⟩, ⟨_, rfl⟩, ⟨_, rfl⟩, ⟨_, rfl⟩, ⟨_, rfl⟩, ⟨_, rfl⟩⟩
  intro capacity lf
  unfold HashTable.HashTable
  by_cases hc : capacity ≤ 0
  · simp [hc]
  · cases h1 : Double.le lf (.fin 0 0) <;> cases h2 : Double.gt lf (.fin 1 0) <;>
      simp [hc, h1, h2]

/-- C2: for every capacity and load factor that pass the checks of the constructor, the
construction succeeds and the new table has exactly `capacity` buckets, all empty:
`capacity()` is the requested capacity, `size()` is 0, `empty()` holds, `keys()` and
`values()` are empty and `Search` finds no key. -/
theorem fresh_table (u : Utils) (hu : u.WellFormed) (capacity : Int) (lf : Double)
    (hc : 0 < capacity) (h0 : Double.le lf (.fin 0 0) = false)
    (h1 : Double.gt lf (.fin 1 0) = false) :
    ∃ t, HashTable.HashTable capacity lf = .ok t ∧
      t.capacity = capacity ∧ t.buckets_ = List.replicate capacity.toNat [] ∧
      t.size = 0 ∧ t.empty = true ∧ t.keys = ∅ ∧ t.values = [] ∧
      ∀ k, Search u t k = some none := by
  have hc' : ¬ capacity ≤ 0 := by omega
  have hok : HashTable.HashTable capacity lf = .ok
      { num_keys_ := 0, load_factor_ := lf, buckets_ := List.replicate capacity.toNat [] } := by
    simp [HashTable.HashTable, hc', h0, h1, initialNumKeys]
  refine ⟨_, hok, ?_, rfl, rfl, rfl, ?_, ?_, ?_⟩
  · simp only [HashTable.capacity, List.length_replicate]
    omega
  · simp [keys_eq, flatten_replicate_nil]
  · simp [values_eq, flatten_replicate_nil]
  · exact fun k => Search_construct hu hok k

/-- C2 at capacity 8 and load factor `0.01`. -/
theorem fresh_table_witness :
    ∃ t, HashTable.HashTable 8 (Double.literal 1 2) = .ok t ∧
      t.capacity = 8 ∧ t.buckets_ = List.replicate (8 : Int).toNat [] ∧
      t.size = 0 ∧ t.empty = true ∧ t.keys = ∅ ∧ t.values = [] ∧
      ∀ k, Search modUtils t k = some none :=
  fresh_table modUtils modUtils_wellFormed 8 (Double.literal 1 2) (by decide) (by decide)
    (by decide)

/-- C3: on every table reachable from a successful construction by `Put` and `Remove`, for
every key and value, `Put(k, v)` returns and `Search(k)` right after it returns `v`, whether
the key was present or not and whether or not the `Put` resized the table. -/
theorem put_then_search (u : Utils) (hu : u.WellFormed) (t : HashTable)
    (hr : Reachable u t) (k : Int) (v : String) :
    ∃ t1, Put u t k v = some t1 ∧ Search u t1 k = some (some v) := by
  obtain ⟨t1, h1, _, _, _, _, h2, _⟩ := Put_spec hu (reachable_inv hu hr) k v
  exact ⟨t1, h1, h2⟩

/-- C3 on the one-key table, for the key that is present. -/
theorem put_then_search_witness :
    ∃ t1, Put modUtils oneKeyTable 1 "b" = some t1 ∧ Search modUtils t1 1 = some (some "b") :=
  put_then_search modUtils modUtils_wellFormed oneKeyTable oneKeyTable_reachable 1 "b"

/-- C4: on every reachable table, `Put(k, v)` returns and, for every other key, `Search`
gives after it what it gave before it, also when the `Put` rehashes into a larger array. -/
theorem put_preserves_other_keys (u : Utils) (hu : u.WellFormed) (t : HashTable)
    (hr : Reachable u t) (k : Int) (v : String) (k1 : Int) (hk : k1 ≠ k) :
    ∃ t1 r, Put u t k v = some t1 ∧ Search u t k1 = some r ∧ Search u t1 k1 = some r := by
  obtain ⟨t1, h1, _, _, _, _, _, h2⟩ := Put_spec hu (reachable_inv hu hr) k v
  refine ⟨t1, _, h1, Search_eq hu t (reachable_inv hu hr).cap_pos k1, ?_⟩
  rw [h2 k1 hk]
  exact Search_eq hu t (reachable_inv hu hr).cap_pos k1

/-- C4 on the one-key table: inserting key 2 resizes it and key 1 keeps its value. -/
theorem put_preserves_other_keys_witness :
    ∃ t1 r, Put modUtils oneKeyTable 2 "b" = some t1 ∧ Search modUtils oneKeyTable 1 = some r ∧
      Search modUtils t1 1 = some r :=
  put_preserves_other_keys modUtils modUtils_wellFormed oneKeyTable oneKeyTable_reachable
    2 "b" 1 (by decide)

/-- C5: on every reachable table `Put(k, v)` returns; it raises `size()` by exactly one when
the key was absent, and the table is then not empty; it leaves `size()` unchanged when the key
was present; so two `Put`s of an absent key raise `size()` by one in total and `Search`
returns the second value. -/
theorem put_size (u : Utils) (hu : u.WellFormed) (t : HashTable) (hr : Reachable u t)
    (k : Int) (v : String) :
    ∃ t1, Put u t k v = some t1 ∧
      (Search u t k = some none → t1.size = t.size + 1 ∧ t1.empty = false) ∧
      (∀ w, Search u t k = some (some w) → t1.size = t.size) ∧
      (Search u t k = some none → ∀ v2, ∃ t2, Put u t1 k v2 = some t2 ∧
        Search u t2 k = some (some v2) ∧ t2.size = t.size + 1) := by
  have hinv := reachable_inv hu hr
  obtain ⟨t1, h1, hinv1, _, hsz, _, hs1, _⟩ := Put_spec hu hinv k v
  refine ⟨t1, h1, ?_, ?_, ?_⟩
  · intro habs
    have : t1.size = t.size + 1 := by simp [hsz, sizeAfterStep, habs]
    refine ⟨this, ?_⟩
    have hnn : 0 ≤ t.size := by
      simp only [size, hinv.size_eq]
      omega
    simp only [empty, this, decide_eq_false_iff_not]
    omega
  · intro w hw
    simp [hsz, sizeAfterStep, hw]
  · intro habs v2
    obtain ⟨t2, h2, _, _, hsz2, _, hs2, _⟩ := Put_spec hu hinv1 k v2
    refine ⟨t2, h2, hs2, ?_⟩
    simp [hsz2, sizeAfterStep, hs1, hsz, habs]

/-- C5 on the empty table of four buckets and key 1. -/
theorem put_size_witness :
    ∃ t1, Put modUtils emptyTable 1 "a" = some t1 ∧
      (Search modUtils emptyTable 1 = some none →
        t1.size = emptyTable.size + 1 ∧ t1.empty = false) ∧
      (∀ w, Search modUtils emptyTable 1 = some (some w) → t1.size = emptyTable.size) ∧
      (Search modUtils emptyTable 1 = some none → ∀ v2, ∃ t2, Put modUtils t1 1 v2 = some t2 ∧
        Search modUtils t2 1 = some (some v2) ∧ t2.size = emptyTable.size + 1) :=
  put_size modUtils modUtils_wellFormed emptyTable emptyTable_reachable 1 "a"

/-- C6: on every reachable table, if `Search(k)` returns `w` then `Remove(k)` returns `w`,
lowers `size()` by exactly one, and `Search(k)` afterwards returns nothing. -/
theorem remove_present (u : Utils) (hu : u.WellFormed) (t : HashTable) (hr : Reachable u t)
    (k : Int) (w : String) (hs : Search u t k = some (some w)) :
    ∃ t1, Remove u t k = some (some w, t1) ∧ t1.size = t.size - 1 ∧
      Search u t1 k = some none := by
  obtain ⟨t1, h1, _, h2, _, h3, _⟩ := Remove_spec_present hu (reachable_inv hu hr) k w hs
  exact ⟨t1, h1, h2, h3⟩

/-- C6 on the one-key table. -/
theorem remove_present_witness :
    ∃ t1, Remove modUtils oneKeyTable 1 = some (some "a", t1) ∧
      t1.size = oneKeyTable.size - 1 ∧ Search modUtils t1 1 = some none :=
  remove_present modUtils modUtils_wellFormed oneKeyTable oneKeyTable_reachable 1 "a"
    (by decide)

/-- C7: on every reachable table, if `Search(k)` returns nothing then `Remove(k)` returns
nothing and the table (every bucket, the size, the capacity) is unchanged. -/
theorem remove_absent (u : Utils) (hu : u.WellFormed) (t : HashTable) (hr : Reachable u t)
    (k : Int) (hs : Search u t k = some none) : Remove u t k = some (none, t) :=
  Remove_of_absent hu t (reachable_inv hu hr).cap_pos k
    ((Search_eq_some_none hu t (reachable_inv hu hr).cap_pos k).1 hs)

/-- C7 on the one-key table and the absent key 5, which hashes to the occupied bucket. -/
theorem remove_absent_witness : Remove modUtils oneKeyTable 5 = some (none, oneKeyTable) :=
  remove_absent modUtils modUtils_wellFormed oneKeyTable oneKeyTable_reachable 5 (by decide)

/-- C8, as stated, fails: with capacity 4 and load factor `0.5` the second distinct key
already makes `2 / 4 >= 0.5` true, so the capacity is 8 and not 4 after two insertions. -/
theorem two_keys_capacity_counterexample :
    ∃ t0 t1 t2, HashTable.HashTable 4 (Double.literal 5 1) = .ok t0 ∧
      Put modUtils t0 1 "a" = some t1 ∧ Put modUtils t1 2 "b" = some t2 ∧
      t2.capacity = 8 ∧ t2.capacity ≠ 4 :=
  ⟨emptyTable,
   { num_keys_ := 1, load_factor_ := Double.literal 5 1, buckets_ := [[], [(1, "a")], [], []] },
   { num_keys_ := 2, load_factor_ := Double.literal 5 1,
     buckets_ := [[], [(1, "a")], [(2, "b")], [], [], [], [], []] },
   rfl, by decide, by decide, by decide, by decide⟩

/-- C8, amended: with growth coefficient 2, on a table constructed with capacity 4 and load
factor `0.5`, the capacity is 4 after the first key, 8 after the second distinct key
(`2 / 4 >= 0.5`) and still 8 after the third, and all three keys are then found by
`Search` with their values. -/
theorem growth_example (u : Utils) (hu : u.WellFormed) (hg : u.kGrowthCoefficient = 2)
    (k1 k2 k3 : Int) (v1 v2 v3 : String) (h12 : k1 ≠ k2) (h13 : k1 ≠ k3) (h23 : k2 ≠ k3) :
    ∃ t0 t1 t2 t3, HashTable.HashTable 4 (Double.literal 5 1) = .ok t0 ∧
      Put u t0 k1 v1 = some t1 ∧ t1.capacity = 4 ∧
      Put u t1 k2 v2 = some t2 ∧ t2.capacity = 8 ∧
      Put u t2 k3 v3 = some t3 ∧ t3.capacity = 8 ∧
      Search u t3 k1 = some (some v1) ∧ Search u t3 k2 = some (some v2) ∧
      Search u t3 k3 = some (some v3) := by
  have h0 : HashTable.HashTable 4 (Double.literal 5 1) = .ok emptyTable := rfl
  have hinv0 := Inv_construct u h0
  have hcap0 : emptyTable.capacity = 4 := rfl
  have hlf0 : emptyTable.load_factor_ = Double.literal 5 1 := rfl
  have hsz0 : emptyTable.size = 0 := rfl
  have e1 : Double.ge (Double.div (Double.ofInt (0 + 1)) (Double.ofInt 4))
      (Double.literal 5 1) = false := by decide
  have e2 : Double.ge (Double.div (Double.ofInt (0 + 1 + 1)) (Double.ofInt 4))
      (Double.literal 5 1) = true := by decide
  have e3 : Double.ge (Double.div (Double.ofInt (0 + 1 + 1 + 1)) (Double.ofInt (4 * (2 : Nat))))
      (Double.literal 5 1) = false := by decide
  obtain ⟨t1, p1, hinv1, hlf1, hsz1, hcap1, hs1, hf1⟩ := Put_spec hu hinv0 k1 v1
  have a1 : sizeAfterStep u emptyTable k1 = 0 + 1 := by
    simp [sizeAfterStep, Search_construct hu h0 k1, hsz0]
  rw [a1] at hsz1
  rw [a1, hcap0, hlf0, e1] at hcap1
  simp only [Bool.false_eq_true, if_false] at hcap1
  obtain ⟨t2, p2, hinv2, hlf2, hsz2, hcap2, hs2, hf2⟩ := Put_spec hu hinv1 k2 v2
  have a2 : sizeAfterStep u t1 k2 = 0 + 1 + 1 := by
    simp [sizeAfterStep, hf1 k2 (Ne.symm h12), Search_construct hu h0 k2, hsz1]
  rw [a2] at hsz2
  rw [a2, hcap1, hlf1, hlf0, e2, hg] at hcap2
  simp only [if_true] at hcap2
  obtain ⟨t3, p3, _, _, _, hcap3, hs3, hf3⟩ := Put_spec hu hinv2 k3 v3
  have a3 : sizeAfterStep u t2 k3 = 0 + 1 + 1 + 1 := by
    simp [sizeAfterStep, hf2 k3 (Ne.symm h23), hf1 k3 (Ne.symm h13),
      Search_construct hu h0 k3, hsz2]
  rw [a3, hcap2, hlf2, hlf1, hlf0, e3] at hcap3
  simp only [Bool.false_eq_true, if_false] at hcap3
  refine ⟨emptyTable, t1, t2, t3, h0, p1, hcap1, p2, ?_, p3, ?_, ?_, ?_, hs3⟩
  · rw [hcap2]
    rfl
  · rw [hcap3]
    rfl
  · rw [hf3 k1 h13, hf2 k1 h12, hs1]
  · rw [hf3 k2 h23, hs2]

/-- C8, amended, for the keys 1, 2, 3 hashed modulo the capacity. -/
theorem growth_example_witness :
    ∃ t0 t1 t2 t3, HashTable.HashTable 4 (Double.literal 5 1) = .ok t0 ∧
      Put modUtils t0 1 "a" = some t1 ∧ t1.capacity = 4 ∧
      Put modUtils t1 2 "b" = some t2 ∧ t2.capacity = 8 ∧
      Put modUtils t2 3 "c" = some t3 ∧ t3.capacity = 8 ∧
      Search modUtils t3 1 = some (some "a") ∧ Search modUtils t3 2 = some (some "b") ∧
      Search modUtils t3 3 = some (some "c") :=
  growth_example modUtils modUtils_wellFormed rfl 1 2 3 "a" "b" "c" (by decide) (by decide)
    (by decide)

/-- C9: on every reachable table a `Put` returns; with `t2` the table after its
insert-or-update part (whose size is one more than before if the key was absent, the same
otherwise), the capacity after the `Put` is `capacity * kGrowthCoefficient` if the
floating-point test `size / capacity >= load_factor` holds for the size of `t2`, and the old
capacity otherwise; the size after the `Put` is the size of `t2`. -/
theorem put_resize_rule (u : Utils) (hu : u.WellFormed) (t : HashTable) (hr : Reachable u t)
    (k : Int) (v : String) :
    ∃ t2 t1, putStep u t k v = some t2 ∧ Put u t k v = some t1 ∧
      t2.size = (if Search u t k = some none then t.size + 1 else t.size) ∧
      t1.size = t2.size ∧
      t1.capacity =
        (if Double.ge (Double.div (Double.ofInt t2.size) (Double.ofInt t.capacity))
            t.load_factor_
         then t.capacity * (u.kGrowthCoefficient : Int) else t.capacity) := by
  have hinv := reachable_inv hu hr
  obtain ⟨t1, h1, _, _, hsz, hcap, _, _⟩ := Put_spec hu hinv k v
  have hst := size_stepped_eq hu t hinv.cap_pos k v
  refine ⟨stepped u t k v, t1, putStep_eq hu t hinv.cap_pos k v, h1, ?_, ?_, ?_⟩
  · rw [hst]
    rfl
  · rw [hst, hsz]
  · rw [hst]
    exact hcap

/-- C9 on the one-key table and the new key 2: the size becomes 2 and `2 / 4 >= 0.5`. -/
theorem put_resize_rule_witness :
    ∃ t2 t1, putStep modUtils oneKeyTable 2 "b" = some t2 ∧
      Put modUtils oneKeyTable 2 "b" = some t1 ∧
      t2.size = (if Search modUtils oneKeyTable 2 = some none then oneKeyTable.size + 1
        else oneKeyTable.size) ∧
      t1.size = t2.size ∧
      t1.capacity =
        (if Double.ge (Double.div (Double.ofInt t2.size) (Double.ofInt oneKeyTable.capacity))
            oneKeyTable.load_factor_
         then oneKeyTable.capacity * (modUtils.kGrowthCoefficient : Int)
         else oneKeyTable.capacity) :=
  put_resize_rule modUtils modUtils_wellFormed oneKeyTable oneKeyTable_reachable 2 "b"

/-- C10: in every table reachable from a successful construction by `Put` and `Remove` no
key occurs in two pairs, over all buckets, and the number of elements of `keys()` is
`size()`. -/
theorem keys_unique (u : Utils) (hu : u.WellFormed) (t : HashTable) (hr : Reachable u t) :
    (t.buckets_.flatten.map Prod.fst).Nodup ∧ (t.keys.card : Int) = t.size := by
  have hinv := reachable_inv hu hr
  have hnd := Inv_keys_nodup hinv
  refine ⟨hnd, ?_⟩
  rw [keys_eq, List.toFinset_card_of_nodup hnd, List.length_map]
  exact hinv.size_eq.symm

/-- C10 on the one-key table. -/
theorem keys_unique_witness :
    (oneKeyTable.buckets_.flatten.map Prod.fst).Nodup ∧
      (oneKeyTable.keys.card : Int) = oneKeyTable.size :=
  keys_unique modUtils modUtils_wellFormed oneKeyTable oneKeyTable_reachable

/-! ## Further facts on buckets, `Remove` and the stored pairs -/

theorem searchBucket_of_mem (l : Bucket) (p : Int × String) (hnd : (l.map Prod.fst).Nodup)
    (hp : p ∈ l) : searchBucket l p.1 = some p.2 := by
  induction l with
  | nil => exact absurd hp (List.not_mem_nil _)
  | cons q rest ih =>
    rw [List.map_cons, List.nodup_cons] at hnd
    rcases List.mem_cons.1 hp with h | h
    · subst h
      simp [searchBucket]
    · have hne : ¬ q.1 = p.1 := fun e => hnd.1 (e ▸ List.mem_map_of_mem Prod.fst h)
      simp [searchBucket, hne, ih hnd.2 h]

theorem overwrite_eq_map (b : Bucket) (k : Int) (v : String) :
    overwrite b k v = b.map (fun p => if p.1 = k then (p.1, v) else p) := by
  induction b with
  | nil => rfl
  | cons p rest ih => simp [overwrite, ih]

theorem Search_isSome_iff_mem_keys {u : Utils} (hu : u.WellFormed) {t : HashTable}
    (hinv : Inv u t) (k : Int) :
    (searchBucket (bucketOf u t k) k).isSome = true ↔ k ∈ t.keys := by
  rw [← Inv_search_flatten hu hinv, keys_eq, List.mem_toFinset,
    ← not_iff_not, ← searchBucket_eq_none_iff]
  cases searchBucket t.buckets_.flatten k <;> simp

/-- Everything one `Remove` does to a table that satisfies the invariants. -/
theorem Remove_spec {u : Utils} (hu : u.WellFormed) {t : HashTable} (hinv : Inv u t)
    (k : Int) :
    ∃ r t1, Remove u t k = some (r, t1) ∧ Inv u t1 ∧ t1.capacity = t.capacity ∧
      Search u t k = some r ∧ ∀ k1, k1 ≠ k → Search u t1 k1 = Search u t k1 := by
  cases hs : searchBucket (bucketOf u t k) k with
  | none =>
    refine ⟨none, t, Remove_of_absent hu t hinv.cap_pos k hs, hinv, rfl, ?_, fun _ _ => rfl⟩
    rw [Search_eq hu t hinv.cap_pos, hs]
  | some w =>
    have hsearch : Search u t k = some (some w) := by rw [Search_eq hu t hinv.cap_pos, hs]
    obtain ⟨t1, h1, h2, _, h3, _, h4⟩ := Remove_spec_present hu hinv k w hsearch
    exact ⟨some w, t1, h1, h2, h3, hsearch, h4⟩

theorem growthNeeded_updated (u : Utils) (t : HashTable) (k : Int) (v : String) :
    growthNeeded (updated u t k v) = growthNeeded t := by
  simp [growthNeeded, updated]

/-! ## The claims of the specification, continued -/

/-- C11: in every table reachable from a successful construction by `Put` and `Remove`,
every pair stored in bucket number `i` has a key whose hash under the current capacity is
`i`; `Put` and `Remove` return on such a table and the table they leave has the same
property. -/
theorem placement_invariant (u : Utils) (hu : u.WellFormed) (t : HashTable)
    (hr : Reachable u t) :
    (∀ (i : Nat) (b : Bucket), t.buckets_[i]? = some b →
      ∀ p ∈ b, t.hash u p.1 = (i : Int)) ∧
    (∀ (k : Int) (v : String), ∃ t1, Put u t k v = some t1 ∧
      ∀ (i : Nat) (b : Bucket), t1.buckets_[i]? = some b →
        ∀ p ∈ b, t1.hash u p.1 = (i : Int)) ∧
    (∀ (k : Int), ∃ r t1, Remove u t k = some (r, t1) ∧
      ∀ (i : Nat) (b : Bucket), t1.buckets_[i]? = some b →
        ∀ p ∈ b, t1.hash u p.1 = (i : Int)) := by
  have hinv := reachable_inv hu hr
  refine ⟨hinv.placed, ?_, ?_⟩
  · intro k v
    obtain ⟨t1, h1, hinv1, _⟩ := Put_spec hu hinv k v
    exact ⟨t1, h1, hinv1.placed⟩
  · intro k
    obtain ⟨r, t1, h1, hinv1, _⟩ := Remove_spec hu hinv k
    exact ⟨r, t1, h1, hinv1.placed⟩

/-- C11 on the one-key table. -/
theorem placement_invariant_witness :
    (∀ (i : Nat) (b : Bucket), oneKeyTable.buckets_[i]? = some b →
      ∀ p ∈ b, oneKeyTable.hash modUtils p.1 = (i : Int)) ∧
    (∀ (k : Int) (v : String), ∃ t1, Put modUtils oneKeyTable k v = some t1 ∧
      ∀ (i : Nat) (b : Bucket), t1.buckets_[i]? = some b →
        ∀ p ∈ b, t1.hash modUtils p.1 = (i : Int)) ∧
    (∀ (k : Int), ∃ r t1, Remove modUtils oneKeyTable k = some (r, t1) ∧
      ∀ (i : Nat) (b : Bucket), t1.buckets_[i]? = some b →
        ∀ p ∈ b, t1.hash modUtils p.1 = (i : Int)) :=
  placement_invariant modUtils modUtils_wellFormed oneKeyTable oneKeyTable_reachable

/-- C12: in every table reachable from a successful construction by `Put` and `Remove`,
`size()` is the number of pairs summed over all buckets, and so is not negative. -/
theorem size_invariant (u : Utils) (hu : u.WellFormed) (t : HashTable)
    (hr : Reachable u t) :
    t.size = (((t.buckets_.map List.length).sum : Nat) : Int) ∧ 0 ≤ t.size := by
  have hinv := reachable_inv hu hr
  have h : t.size = (((t.buckets_.map List.length).sum : Nat) : Int) := by
    rw [← List.length_flatten]
    exact hinv.size_eq
  exact ⟨h, by rw [h]; exact Int.ofNat_nonneg _⟩

/-- C12 on the one-key table. -/
theorem size_invariant_witness :
    oneKeyTable.size = (((oneKeyTable.buckets_.map List.length).sum : Nat) : Int) ∧
      0 ≤ oneKeyTable.size :=
  size_invariant modUtils modUtils_wellFormed oneKeyTable oneKeyTable_reachable

/-- C13: on every reachable table and for every key, `Search` and `ContainsKey` return,
`ContainsKey(k)` is true exactly when `Search(k)` returns a value, and that is exactly when
`k` is a member of `keys()`. -/
theorem membership_agreement (u : Utils) (hu : u.WellFormed) (t : HashTable)
    (hr : Reachable u t) (k : Int) :
    ∃ r c, Search u t k = some r ∧ ContainsKey u t k = some c ∧
      (c = true ↔ r.isSome = true) ∧ (r.isSome = true ↔ k ∈ t.keys) ∧
      (k ∈ t.keys ↔ ∃ b ∈ t.buckets_, ∃ p ∈ b, p.1 = k) := by
  have hinv := reachable_inv hu hr
  refine ⟨_, _, Search_eq hu t hinv.cap_pos k, ContainsKey_eq hu t hinv.cap_pos k, Iff.rfl,
    Search_isSome_iff_mem_keys hu hinv k, ?_⟩
  rw [keys_eq, List.mem_toFinset, List.mem_map]
  constructor
  · rintro ⟨p, hp, hpk⟩
    obtain ⟨b, hb, hpb⟩ := List.mem_flatten.1 hp
    exact ⟨b, hb, p, hpb, hpk⟩
  · rintro ⟨b, hb, p, hpb, hpk⟩
    exact ⟨p, List.mem_flatten.2 ⟨b, hb, hpb⟩, hpk⟩

/-- C13 on the one-key table and its key. -/
theorem membership_agreement_witness :
    ∃ r c, Search modUtils oneKeyTable 1 = some r ∧ ContainsKey modUtils oneKeyTable 1 = some c ∧
      (c = true ↔ r.isSome = true) ∧ (r.isSome = true ↔ (1 : Int) ∈ oneKeyTable.keys) ∧
      ((1 : Int) ∈ oneKeyTable.keys ↔ ∃ b ∈ oneKeyTable.buckets_, ∃ p ∈ b, p.1 = 1) :=
  membership_agreement modUtils modUtils_wellFormed oneKeyTable oneKeyTable_reachable 1

/-- C14: `values()` is the concatenation of the buckets' value sequences, in bucket-array
order and in each bucket's own order; on every reachable table its length is `size()` and,
as a multiset, it is the collection of the results of `Search(k)` for `k` in `keys()`. -/
theorem values_spec (u : Utils) (hu : u.WellFormed) (t : HashTable) (hr : Reachable u t) :
    t.values = (t.buckets_.map (List.map Prod.snd)).flatten ∧
    (t.values.length : Int) = t.size ∧
    Multiset.map (fun k => Search u t k) t.keys.val =
      Multiset.map (fun v => some (some v)) (t.values : Multiset String) := by
  have hinv := reachable_inv hu hr
  have hnd := Inv_keys_nodup hinv
  refine ⟨?_, ?_, ?_⟩
  · rw [values_eq, List.map_flatten]
  · rw [values_eq, List.length_map]
    exact hinv.size_eq.symm
  · rw [keys_eq, values_eq, List.toFinset_val, hnd.dedup, Multiset.map_coe, Multiset.map_coe,
      List.map_map, List.map_map]
    congr 1
    apply List.map_congr_left
    intro p hp
    simp only [Function.comp_apply]
    rw [Search_eq hu t hinv.cap_pos, ← Inv_search_flatten hu hinv,
      searchBucket_of_mem _ p hnd hp]

/-- C14 on the one-key table. -/
theorem values_spec_witness :
    oneKeyTable.values = (oneKeyTable.buckets_.map (List.map Prod.snd)).flatten ∧
    (oneKeyTable.values.length : Int) = oneKeyTable.size ∧
    Multiset.map (fun k => Search modUtils oneKeyTable k) oneKeyTable.keys.val =
      Multiset.map (fun v => some (some v)) (oneKeyTable.values : Multiset String) :=
  values_spec modUtils modUtils_wellFormed oneKeyTable oneKeyTable_reachable

/-- C15: in every table reachable from a successful construction by `Put` and `Remove`,
`capacity()` is positive; `Remove` returns and leaves `capacity()` unchanged; `Put` returns
and does not lower `capacity()` (growth coefficient at least one, integers unbounded). -/
theorem capacity_invariant (u : Utils) (hu : u.WellFormed) (t : HashTable)
    (hr : Reachable u t) :
    0 < t.capacity ∧
    (∀ (k : Int), ∃ r t1, Remove u t k = some (r, t1) ∧ t1.capacity = t.capacity) ∧
    (∀ (k : Int) (v : String), ∃ t1, Put u t k v = some t1 ∧ t.capacity ≤ t1.capacity) := by
  have hinv := reachable_inv hu hr
  have hpos : 0 < t.capacity := by
    have := hinv.cap_pos
    simp only [capacity]
    omega
  refine ⟨hpos, ?_, ?_⟩
  · intro k
    obtain ⟨r, t1, h1, _, h2, _⟩ := Remove_spec hu hinv k
    exact ⟨r, t1, h1, h2⟩
  · intro k v
    obtain ⟨t1, h1, _, _, _, hcap, _⟩ := Put_spec hu hinv k v
    refine ⟨t1, h1, ?_⟩
    rw [hcap]
    split
    · have hg : (1 : Int) ≤ (u.kGrowthCoefficient : Int) := by exact_mod_cast hu.growth_pos
      nlinarith
    · exact le_refl _

/-- C15 on the one-key table. -/
theorem capacity_invariant_witness :
    0 < oneKeyTable.capacity ∧
    (∀ (k : Int), ∃ r t1, Remove modUtils oneKeyTable k = some (r, t1) ∧
      t1.capacity = oneKeyTable.capacity) ∧
    (∀ (k : Int) (v : String), ∃ t1, Put modUtils oneKeyTable k v = some t1 ∧
      oneKeyTable.capacity ≤ t1.capacity) :=
  capacity_invariant modUtils modUtils_wellFormed oneKeyTable oneKeyTable_reachable

theorem map_keys_set (bs : List Bucket) (h : Nat) (hlt : h < bs.length) (b1 : Bucket)
    (hk : b1.map Prod.fst = (bs.getD h []).map Prod.fst) :
    (bs.set h b1).map (List.map Prod.fst) = bs.map (List.map Prod.fst) := by
  obtain ⟨l1, l2, h1, _, h3⟩ := split_at bs h hlt
  rw [h3 b1]
  conv_rhs => rw [h1]
  simp only [List.map_append, List.map_cons, hk]

/-- C16, as stated, fails: with capacity 1 and load factor `0.25` the first `Put` grows the
table to 2 buckets, where `1 / 2 >= 0.25` still holds, so the `Put` that only overwrites the
value of the present key 1 resizes again, to 4 buckets. -/
theorem overwrite_resizes_counterexample :
    ∃ t0 t1 t2, HashTable.HashTable 1 (Double.literal 25 2) = .ok t0 ∧
      Put modUtils t0 1 "a" = some t1 ∧ Search modUtils t1 1 = some (some "a") ∧
      Put modUtils t1 1 "b" = some t2 ∧ t2.size = t1.size ∧
      t1.capacity = 2 ∧ t2.capacity = 4 :=
  ⟨{ num_keys_ := 0, load_factor_ := Double.literal 25 2, buckets_ := [[]] },
   { num_keys_ := 1, load_factor_ := Double.literal 25 2, buckets_ := [[], [(1, "a")]] },
   { num_keys_ := 1, load_factor_ := Double.literal 25 2,
     buckets_ := [[], [(1, "b")], [], []] },
   rfl, by decide, by decide, by decide, by decide, by decide, by decide⟩

/-- C16, amended: on every reachable table a `Put` whose key is already present returns and
leaves `size()` unchanged; it resizes exactly when the growth test
`size / capacity >= load_factor` already holds for the table before the `Put`; when the test
fails, `capacity()` and the keys of every bucket, in their positions, are unchanged. -/
theorem overwrite_resize_rule (u : Utils) (hu : u.WellFormed) (t : HashTable)
    (hr : Reachable u t) (k : Int) (v w : String) (hs : Search u t k = some (some w)) :
    ∃ t1, Put u t k v = some t1 ∧ t1.size = t.size ∧
      (growthNeeded t = false →
        t1.capacity = t.capacity ∧
        t1.buckets_.map (List.map Prod.fst) = t.buckets_.map (List.map Prod.fst)) ∧
      (growthNeeded t = true →
        t1.capacity = t.capacity * (u.kGrowthCoefficient : Int)) := by
  have hinv := reachable_inv hu hr
  have hb : searchBucket (bucketOf u t k) k = some w := by
    rw [Search_eq hu t hinv.cap_pos] at hs
    simpa using hs
  have hst : stepped u t k v = updated u t k v := by simp [stepped, hb]
  have hput := Put_eq hu t hinv.cap_pos k v
  rw [hst, growthNeeded_updated] at hput
  refine ⟨_, hput, ?_, ?_, ?_⟩
  · split <;> rfl
  · intro hg
    simp only [hg, Bool.false_eq_true, if_false]
    refine ⟨by simp [capacity, updated], ?_⟩
    exact map_keys_set _ _ (index_lt hu t hinv.cap_pos k) _ (map_fst_overwrite _ _ _)
  · intro hg
    simp only [hg, if_true]
    simp only [capacity, resized, length_rehashed, updated, List.length_set]
    push_cast
    rfl

/-- C16, amended, on the one-key table, where `1 / 4 >= 0.5` fails. -/
theorem overwrite_resize_rule_witness :
    ∃ t1, Put modUtils oneKeyTable 1 "b" = some t1 ∧ t1.size = oneKeyTable.size ∧
      (growthNeeded oneKeyTable = false →
        t1.capacity = oneKeyTable.capacity ∧
        t1.buckets_.map (List.map Prod.fst) = oneKeyTable.buckets_.map (List.map Prod.fst)) ∧
      (growthNeeded oneKeyTable = true →
        t1.capacity = oneKeyTable.capacity * (modUtils.kGrowthCoefficient : Int)) :=
  overwrite_resize_rule modUtils modUtils_wellFormed oneKeyTable oneKeyTable_reachable 1 "b" "a"
    (by decide)

theorem Put_of_growth {u : Utils} (hu : u.WellFormed) {t : HashTable} (hinv : Inv u t)
    (k : Int) (v : String) (t2 : HashTable) (h2 : putStep u t k v = some t2)
    (hg : growthNeeded t2 = true) :
    Inv u t2 ∧ Put u t k v = some (resized u t2) := by
  have hst := putStep_eq hu t hinv.cap_pos k v
  rw [h2, Option.some.injEq] at hst
  have hinv2 : Inv u t2 := hst ▸ Inv_stepped hu hinv k v
  refine ⟨hinv2, ?_⟩
  simp only [Put, h2, Option.bind_eq_bind, Option.some_bind, hg, if_true]
  rw [resize_eq hu _ hinv2.cap_pos]
  rfl

theorem Put_of_no_growth (u : Utils) (t : HashTable) (k : Int) (v : String) (t2 : HashTable)
    (h2 : putStep u t k v = some t2) (hg : growthNeeded t2 = false) :
    Put u t k v = some t2 := by
  simp [Put, h2, hg]

/-- C17: when a `Put` on a reachable table triggers a resize, the new array has
`capacity * kGrowthCoefficient` buckets, and its bucket `j` is exactly the concatenation of
the old buckets (after the insert-or-update part, in bucket-array order and each in its own
order) filtered to the pairs whose key hashes to `j` under the new capacity; the pairs of the
new array are those of the old one, none lost, duplicated or altered. -/
theorem resize_keeps_order (u : Utils) (hu : u.WellFormed) (t : HashTable)
    (hr : Reachable u t) (k : Int) (v : String) (t2 : HashTable)
    (h2 : putStep u t k v = some t2) (hg : growthNeeded t2 = true) :
    ∃ t1, Put u t k v = some t1 ∧
      t1.buckets_.length = t2.buckets_.length * u.kGrowthCoefficient ∧
      (∀ (j : Nat), j < t1.buckets_.length →
        t1.buckets_[j]? = some (t2.buckets_.flatten.filter
          (fun p => decide (u.hash p.1 (t1.buckets_.length : Int) = (j : Int))))) ∧
      List.Perm t1.buckets_.flatten t2.buckets_.flatten := by
  have hinv := reachable_inv hu hr
  obtain ⟨hinv2, hput⟩ := Put_of_growth hu hinv k v t2 h2 hg
  have hn : 0 < t2.buckets_.length * u.kGrowthCoefficient :=
    Nat.mul_pos hinv2.cap_pos hu.growth_pos
  have hlen : (resized u t2).buckets_.length = t2.buckets_.length * u.kGrowthCoefficient := by
    simp [resized, length_rehashed]
  refine ⟨resized u t2, hput, hlen, ?_, ?_⟩
  · intro j hj
    rw [hlen] at hj ⊢
    exact getElem?_rehashed u _ _ j hj
  · exact rehashed_flatten_perm hu _ hn _

/-- C17 on the one-key table and the new key 2, whose `Put` resizes to 8 buckets. -/
theorem resize_keeps_order_witness :
    ∃ t1, Put modUtils oneKeyTable 2 "b" = some t1 ∧
      t1.buckets_.length = twoKeyStepTable.buckets_.length * modUtils.kGrowthCoefficient ∧
      (∀ (j : Nat), j < t1.buckets_.length →
        t1.buckets_[j]? = some (twoKeyStepTable.buckets_.flatten.filter
          (fun p => decide (modUtils.hash p.1 (t1.buckets_.length : Int) = (j : Int))))) ∧
      List.Perm t1.buckets_.flatten twoKeyStepTable.buckets_.flatten :=
  resize_keeps_order modUtils modUtils_wellFormed oneKeyTable oneKeyTable_reachable 2 "b"
    twoKeyStepTable (by decide) (by decide)

/-- C18: when a `Put(k, v)` on a reachable table does not trigger a resize, the number of
buckets is unchanged, every bucket other than the one `k` hashes to is unchanged, and that
bucket becomes its old sequence with `(k, v)` appended if `k` was absent, and its old sequence
with the value of each pair of key `k` replaced by `v` (same length, same keys in the same
positions) if `k` was present. -/
theorem put_without_resize (u : Utils) (hu : u.WellFormed) (t : HashTable)
    (hr : Reachable u t) (k : Int) (v : String) (t2 : HashTable)
    (h2 : putStep u t k v = some t2) (hg : growthNeeded t2 = false) :
    Put u t k v = some t2 ∧ t2.buckets_.length = t.buckets_.length ∧
      (∀ (i : Nat), i ≠ (t.hash u k).toNat → t2.buckets_[i]? = t.buckets_[i]?) ∧
      ∃ b, t.buckets_[(t.hash u k).toNat]? = some b ∧
        (Search u t k = some none →
          t2.buckets_[(t.hash u k).toNat]? = some (b ++ [(k, v)])) ∧
        (∀ w, Search u t k = some (some w) →
          t2.buckets_[(t.hash u k).toNat]? =
            some (b.map (fun p => if p.1 = k then (p.1, v) else p))) := by
  have hinv := reachable_inv hu hr
  have hlt := index_lt hu t hinv.cap_pos k
  have hst := putStep_eq hu t hinv.cap_pos k v
  rw [h2, Option.some.injEq] at hst
  refine ⟨Put_of_no_growth u t k v t2 h2 hg, ?_, ?_,
    bucketOf u t k, getElem?_index hu t hinv.cap_pos k, ?_, ?_⟩
  · rw [hst]
    unfold stepped
    split <;> simp [updated, inserted]
  · intro i hi
    rw [hst]
    unfold stepped
    split <;> simp [updated, inserted, List.getElem?_set, Ne.symm hi]
  · intro habs
    have hb := (Search_eq_some_none hu t hinv.cap_pos k).1 habs
    rw [hst]
    simp [stepped, hb, inserted, List.getElem?_set, hlt]
  · intro w hw
    have hb : searchBucket (bucketOf u t k) k = some w := by
      rw [Search_eq hu t hinv.cap_pos] at hw
      simpa using hw
    rw [hst, ← overwrite_eq_map]
    simp [stepped, hb, updated, List.getElem?_set, hlt]

/-- C18 on the one-key table and the present key 1. -/
theorem put_without_resize_witness :
    Put modUtils oneKeyTable 1 "b" = some overwrittenTable ∧
      overwrittenTable.buckets_.length = oneKeyTable.buckets_.length ∧
      (∀ (i : Nat), i ≠ (oneKeyTable.hash modUtils 1).toNat →
        overwrittenTable.buckets_[i]? = oneKeyTable.buckets_[i]?) ∧
      ∃ b, oneKeyTable.buckets_[(oneKeyTable.hash modUtils 1).toNat]? = some b ∧
        (Search modUtils oneKeyTable 1 = some none →
          overwrittenTable.buckets_[(oneKeyTable.hash modUtils 1).toNat]? =
            some (b ++ [(1, "b")])) ∧
        (∀ w, Search modUtils oneKeyTable 1 = some (some w) →
          overwrittenTable.buckets_[(oneKeyTable.hash modUtils 1).toNat]? =
            some (b.map (fun p => if p.1 = 1 then (p.1, "b") else p))) :=
  put_without_resize modUtils modUtils_wellFormed oneKeyTable oneKeyTable_reachable 1 "b"
    overwrittenTable (by decide) (by decide)

/-- C19: on every reachable table `Remove(k)` returns; for every other key `Search` gives
after it what it gave before it; and when `k` is present with value `w`, the bucket `k`
hashes to is `l1 ++ (k, w) :: l2` with `k` in neither part and becomes `l1 ++ l2`, while the
number of buckets and every other bucket are unchanged. -/
theorem remove_frame (u : Utils) (hu : u.WellFormed) (t : HashTable) (hr : Reachable u t)
    (k : Int) :
    ∃ r t1, Remove u t k = some (r, t1) ∧
      (∀ k1, k1 ≠ k → ∃ r1, Search u t k1 = some r1 ∧ Search u t1 k1 = some r1) ∧
      (∀ w, Search u t k = some (some w) →
        ∃ l1 l2, t.buckets_[(t.hash u k).toNat]? = some (l1 ++ (k, w) :: l2) ∧
          k ∉ l1.map Prod.fst ∧ k ∉ l2.map Prod.fst ∧
          t1.buckets_[(t.hash u k).toNat]? = some (l1 ++ l2) ∧
          t1.buckets_.length = t.buckets_.length ∧
          ∀ (i : Nat), i ≠ (t.hash u k).toNat → t1.buckets_[i]? = t.buckets_[i]?) := by
  have hinv := reachable_inv hu hr
  have hlt := index_lt hu t hinv.cap_pos k
  have hidx := getElem?_index hu t hinv.cap_pos k
  cases hs : searchBucket (bucketOf u t k) k with
  | none =>
    refine ⟨none, t, Remove_of_absent hu t hinv.cap_pos k hs, ?_, ?_⟩
    · exact fun k1 _ => ⟨_, Search_eq hu t hinv.cap_pos k1, Search_eq hu t hinv.cap_pos k1⟩
    · intro w hw
      rw [Search_eq hu t hinv.cap_pos, hs] at hw
      exact absurd hw (by simp)
  | some w =>
    obtain ⟨b1, hb1⟩ := removeLoop_of_search _ _ _ hs
    obtain ⟨l1, l2, e1, e2, hn1⟩ := (removeLoop_eq_some_iff _ _ _ _).1 hb1
    have hnd := hinv.nodup _ (List.getElem?_mem hidx)
    refine ⟨some w, removed u t k b1, Remove_of_present hu t hinv.cap_pos k w b1 hb1, ?_, ?_⟩
    · intro k1 hk1
      refine ⟨_, Search_eq hu t hinv.cap_pos k1, ?_⟩
      rw [Search_set_ne hu t _ hinv.cap_pos k k1 b1 rfl
        (searchBucket_removed_ne _ _ _ _ _ hb1 hk1)]
      exact Search_eq hu t hinv.cap_pos k1
    · intro w1 hw1
      rw [Search_eq hu t hinv.cap_pos, hs] at hw1
      simp only [Option.some.injEq] at hw1
      subst hw1
      have hn2 : k ∉ l2.map Prod.fst := by
        rw [e1, List.map_append, List.map_cons, List.nodup_append] at hnd
        exact (List.nodup_cons.1 hnd.2.1).1
      refine ⟨l1, l2, by rw [hidx, e1], hn1, hn2, ?_, ?_, ?_⟩
      · simp [removed, List.getElem?_set, hlt, e2]
      · simp [removed]
      · intro i hi
        simp [removed, List.getElem?_set, Ne.symm hi]

/-- C19 on the one-key table and its key. -/
theorem remove_frame_witness :
    ∃ r t1, Remove modUtils oneKeyTable 1 = some (r, t1) ∧
      (∀ k1, k1 ≠ 1 → ∃ r1, Search modUtils oneKeyTable k1 = some r1 ∧
        Search modUtils t1 k1 = some r1) ∧
      (∀ w, Search modUtils oneKeyTable 1 = some (some w) →
        ∃ l1 l2, oneKeyTable.buckets_[(oneKeyTable.hash modUtils 1).toNat]? =
            some (l1 ++ (1, w) :: l2) ∧
          (1 : Int) ∉ l1.map Prod.fst ∧ (1 : Int) ∉ l2.map Prod.fst ∧
          t1.buckets_[(oneKeyTable.hash modUtils 1).toNat]? = some (l1 ++ l2) ∧
          t1.buckets_.length = oneKeyTable.buckets_.length ∧
          ∀ (i : Nat), i ≠ (oneKeyTable.hash modUtils 1).toNat →
            t1.buckets_[i]? = oneKeyTable.buckets_[i]?) :=
  remove_frame modUtils modUtils_wellFormed oneKeyTable oneKeyTable_reachable 1

/-- C20: if `utils::hash(key, n)` is an index in `[0, n)` for every key and every positive
`n` (and the growth coefficient is at least one), then on every reachable table the index
used by `Search`, `Put` and `Remove` is within the bucket array, the three operations never
take the out-of-range branch, and a resize after the insert-or-update part of a `Put` never
leaves the new array of `capacity * kGrowthCoefficient` buckets: every stored key hashes
below that length. -/
theorem index_safety (u : Utils)
    (hnn : ∀ (key n : Int), 0 < n → 0 ≤ u.hash key n)
    (hlt : ∀ (key n : Int), 0 < n → u.hash key n < n)
    (hg : 1 ≤ u.kGrowthCoefficient)
    (t : HashTable) (hr : Reachable u t) (k : Int) (v : String) :
    (0 ≤ t.hash u k ∧ t.hash u k < t.capacity) ∧
    (∃ b, bucketAt t.buckets_ (t.hash u k) = some b) ∧
    (∃ r, Search u t k = some r) ∧
    (∃ t1, Put u t k v = some t1) ∧
    (∃ r t1, Remove u t k = some (r, t1)) ∧
    (∃ t2 t3, putStep u t k v = some t2 ∧ resize u t2 = some t3 ∧
      t3.capacity = t2.capacity * (u.kGrowthCoefficient : Int) ∧
      ∀ p ∈ t2.buckets_.flatten,
        0 ≤ u.hash p.1 (t2.capacity * (u.kGrowthCoefficient : Int)) ∧
        u.hash p.1 (t2.capacity * (u.kGrowthCoefficient : Int)) < t3.capacity) := by
  have hu : u.WellFormed := ⟨hnn, hlt, hg⟩
  have hinv := reachable_inv hu hr
  have hpos : (0 : Int) < (t.buckets_.length : Int) := by exact_mod_cast hinv.cap_pos
  have hinv2 := Inv_stepped hu hinv k v
  have hn : 0 < (stepped u t k v).buckets_.length * u.kGrowthCoefficient :=
    Nat.mul_pos hinv2.cap_pos hg
  have hn' : (0 : Int) < (stepped u t k v).capacity * (u.kGrowthCoefficient : Int) := by
    simp only [capacity]
    exact_mod_cast hn
  have hcap3 : (resized u (stepped u t k v)).capacity =
      (stepped u t k v).capacity * (u.kGrowthCoefficient : Int) := by
    simp only [capacity, resized, length_rehashed]
    push_cast
    rfl
  obtain ⟨t1, h1, _⟩ := Put_spec hu hinv k v
  obtain ⟨r, t4, h4, _⟩ := Remove_spec hu hinv k
  refine ⟨⟨hnn k _ hpos, hlt k _ hpos⟩, ⟨_, bucketAt_eq hu t hinv.cap_pos k⟩,
    ⟨_, Search_eq hu t hinv.cap_pos k⟩, ⟨t1, h1⟩, ⟨r, t4, h4⟩,
    stepped u t k v, resized u (stepped u t k v), putStep_eq hu t hinv.cap_pos k v,
    resize_eq hu _ hinv2.cap_pos, hcap3, ?_⟩
  intro p _
  rw [hcap3]
  exact ⟨hnn p.1 _ hn', hlt p.1 _ hn'⟩

/-- C20 on the one-key table, for the new key 2, hashed modulo the capacity. -/
theorem index_safety_witness :
    (0 ≤ oneKeyTable.hash modUtils 2 ∧ oneKeyTable.hash modUtils 2 < oneKeyTable.capacity) ∧
    (∃ b, bucketAt oneKeyTable.buckets_ (oneKeyTable.hash modUtils 2) = some b) ∧
    (∃ r, Search modUtils oneKeyTable 2 = some r) ∧
    (∃ t1, Put modUtils oneKeyTable 2 "b" = some t1) ∧
    (∃ r t1, Remove modUtils oneKeyTable 2 = some (r, t1)) ∧
    (∃ t2 t3, putStep modUtils oneKeyTable 2 "b" = some t2 ∧ resize modUtils t2 = some t3 ∧
      t3.capacity = t2.capacity * (modUtils.kGrowthCoefficient : Int) ∧
      ∀ p ∈ t2.buckets_.flatten,
        0 ≤ modUtils.hash p.1 (t2.capacity * (modUtils.kGrowthCoefficient : Int)) ∧
        modUtils.hash p.1 (t2.capacity * (modUtils.kGrowthCoefficient : Int)) < t3.capacity) :=
  index_safety modUtils modUtils_wellFormed.hash_nonneg modUtils_wellFormed.hash_lt
    modUtils_wellFormed.growth_pos oneKeyTable oneKeyTable_reachable 2 "b"

end itis
